import Mathlib

/-!
# The log writer of forkleveldb (`src/db/log_writer.cc`)

A shallow embedding of `leveldb::log::Writer` and a verification of its
fragmentation contract.

Conventions of the embedding.

* A byte (`char`) is a `Nat`; a `Slice` is a `List Nat`.
* `block_offset_` is a C++ `int`, embedded as an `Int`.  The conversion of an
  `int` to `size_t` is `toSizeT`; a `uint32_t` is a `Nat` reduced modulo `2^32`.
* `assert` aborts the program: a failed assertion is the outcome `assertFailed`.
* The `do ... while` loop of `AddRecord` is `AddRecordLoop`, which runs the loop
  body `AddRecordBody` under a fuel bound; `AddRecord` supplies `size + 2`
  iterations, which is shown to be enough.
* The destination (`WritableFile`) and the checksum (`crc32c`) are collaborators
  that are not part of the writer: both are parameters of every operation.
* `Emission` is ghost state: one entry per loop iteration, recording what the
  iteration passed to the destination and to `EmitPhysicalRecord`.
-/

namespace leveldb

/-! ## Collaborators -/

/-- Modelled from the spec: `leveldb::Status` (include/leveldb/status.h is not
among the sources).  A status is success or a failure; a failure carries a code
that tells failures apart. -/
inductive Status where
  | OK : Status
  | Failure (code : Nat) : Status
  deriving DecidableEq, Repr

/-- Status::ok(). -/
def Status.ok : Status → Bool
  | Status.OK => true
  | Status.Failure _ => false

/-- Modelled from the spec: the destination collaborator (`WritableFile` of
include/leveldb/env.h, not among the sources): `append(bytes) → status` and
`flush() → status`, over an abstract destination state `σ`. -/
structure WritableFile (σ : Type) where
  Append : σ → List Nat → σ × Status
  Flush : σ → σ × Status

/-- Modelled from the spec: the checksum primitive (util/crc32c.h is not among
the sources), a supplied pure function: `Value data` is the checksum of `data`,
`Extend init data` the checksum of `A ++ data` when `init` is the checksum of
`A`. -/
structure Crc32c where
  Value : List Nat → Nat
  Extend : Nat → List Nat → Nat

/-- The contract of the checksum primitive: its results are 32-bit values and
`Extend` continues `Value`. -/
def Crc32c.Contract (crc : Crc32c) : Prop :=
  (∀ data, crc.Value data < 4294967296) ∧
  (∀ init data, crc.Extend init data < 4294967296) ∧
  (∀ a b, crc.Extend (crc.Value a) b = crc.Value (a ++ b))

namespace crc32c

/-- Modelled from the spec: the checksum mask delta `0xa282ead8`. -/
def kMaskDelta : Nat := 0xa282ead8

/-- Modelled from the spec: `masked = rotate_right(crc, 15) + constant (mod 2^32)`
(crc32c::Mask of util/crc32c.h, `((crc >> 15) | (crc << 17)) + kMaskDelta` on
`uint32_t`). -/
def Mask (crc : Nat) : Nat :=
  (((crc >>> 15) ||| ((crc <<< 17) % 4294967296)) + kMaskDelta) % 4294967296

end crc32c

/-- Modelled from the spec: `EncodeFixed32` of util/coding.h, the four bytes of a
`uint32_t`, least significant first. -/
def EncodeFixed32 (value : Nat) : List Nat :=
  [value % 256, (value >>> 8) % 256, (value >>> 16) % 256, (value >>> 24) % 256]

/-! ## Concrete collaborators -/

/-- A destination that never fails: its state is the bytes appended so far. -/
def memFile : WritableFile (List Nat) where
  Append := fun d data => (d ++ data, Status.OK)
  Flush := fun d => (d, Status.OK)

/-- A call on the destination. -/
inductive Call where
  | Append (data : List Nat) : Call
  | Flush : Call
  deriving DecidableEq, Repr

/-- A destination that records what it is asked: the bytes it holds, and every
call made on it with the reply given, oldest first. -/
structure Recorder where
  contents : List Nat
  calls : List (Call × Status)
  deriving DecidableEq, Repr

/-- Modelled from the spec: a destination whose replies are chosen by `env`
from the calls made so far and the call at hand.  A successful `append` adds
its bytes after those already held; a failed one adds nothing (a simulated
append failure); `flush` changes no byte. -/
def scripted (env : List (Call × Status) → Call → Status) : WritableFile Recorder where
  Append := fun d data =>
    let s := env d.calls (Call.Append data)
    ({ contents := if s.ok then d.contents ++ data else d.contents,
       calls := d.calls ++ [(Call.Append data, s)] }, s)
  Flush := fun d =>
    let s := env d.calls Call.Flush
    ({ d with calls := d.calls ++ [(Call.Flush, s)] }, s)

/-- The reply script that fails the call number `k` (counting from 0) with
`Failure code` and lets every other call succeed. -/
def failAt (k code : Nat) : List (Call × Status) → Call → Status :=
  fun history _ => if history.length = k then Status.Failure code else Status.OK

namespace crc32c

/-- One bit of the reflected CRC-32C division (polynomial `0x82F63B78`). -/
def refBit (c : Nat) : Nat :=
  ((c >>> 1) ^^^ (if c % 2 = 1 then 0x82F63B78 else 0)) % 4294967296

/-- One byte of the reference CRC-32C. -/
def refByte (c b : Nat) : Nat :=
  refBit (refBit (refBit (refBit (refBit (refBit (refBit (refBit
    ((c ^^^ (b % 256)) % 4294967296))))))))

/-- The reference CRC-32C `Extend`: undo the final inversion of `init`, divide
`data`, invert. -/
def refExtend (init : Nat) (data : List Nat) : Nat :=
  (data.foldl refByte ((init ^^^ 0xffffffff) % 4294967296)) ^^^ 0xffffffff

/-- A reference checksum: the bitwise CRC-32C (Castagnoli), with
`Value data = Extend 0 data`. -/
def ref : Crc32c where
  Value := fun data => refExtend 0 data
  Extend := refExtend

end crc32c

namespace log

/-! ## db/log_format.h -/

/-- Modelled from the spec: the record-type tags of db/log_format.h,
`0 = reserved, 1 = Full, 2 = First, 3 = Middle, 4 = Last`. -/
inductive RecordType where
  | kZeroType | kFullType | kFirstType | kMiddleType | kLastType
  deriving DecidableEq, Repr

/-- The numeric value of a record-type tag. -/
def RecordType.toNat : RecordType → Nat
  | RecordType.kZeroType => 0
  | RecordType.kFullType => 1
  | RecordType.kFirstType => 2
  | RecordType.kMiddleType => 3
  | RecordType.kLastType => 4

/-- Modelled from the spec: `kMaxRecordType = kLastType`. -/
def kMaxRecordType : Nat := 4

/-- Modelled from the spec: block capacity, 32768 bytes. -/
def kBlockSize : Int := 32768

/-- Modelled from the spec: header size, 4 (checksum) + 2 (length) + 1 (type). -/
def kHeaderSize : Int := 7

/-! ## db/log_writer.cc -/

/-- Conversion of an `int` to `size_t` (64 bits). -/
def toSizeT (x : Int) : Nat := (x % 18446744073709551616).toNat

/-- InitTypeCrc: `type_crc[i] = crc32c::Value(&t, 1)` for `i = 0 .. kMaxRecordType`. -/
def InitTypeCrc (crc : Crc32c) : List Nat :=
  (List.range (kMaxRecordType + 1)).map fun i => crc.Value [i % 256] % 4294967296

/-- The state of a `Writer`: the destination, the offset in the current block and
the per-type checksum seeds. -/
structure Writer (σ : Type) where
  dest_ : σ
  block_offset_ : Int
  type_crc_ : List Nat

/-- The constructor `Writer::Writer(WritableFile* dest)`. -/
def Writer.new {σ : Type} (crc : Crc32c) (dest : σ) : Writer σ :=
  { dest_ := dest, block_offset_ := 0, type_crc_ := InitTypeCrc crc }

/-- The constructor `Writer::Writer(WritableFile* dest, uint64_t dest_length)`. -/
def Writer.newAt {σ : Type} (crc : Crc32c) (dest : σ) (dest_length : Nat) : Writer σ :=
  { dest_ := dest,
    block_offset_ := (((dest_length % 18446744073709551616) % 32768 : Nat) : Int),
    type_crc_ := InitTypeCrc crc }

/-- The header `buf` that EmitPhysicalRecord formats: the masked checksum, the
length in two bytes and the type. -/
def FormatHeader (crc : Crc32c) (type_crc : List Nat) (t : RecordType)
    (ptr : List Nat) (length : Nat) : List Nat :=
  let buf4 := length % 256
  let buf5 := (length >>> 8) % 256
  let buf6 := t.toNat % 256
  let c := crc.Extend (type_crc.getD t.toNat 0) (ptr.take length) % 4294967296
  let c := crc32c.Mask c
  EncodeFixed32 c ++ [buf4, buf5, buf6]

/-- The block `// Write the header and the payload` of EmitPhysicalRecord:
append the header, then the payload, then flush, each only if what came before
succeeded; the result is the destination and the status `s`. -/
def WriteHeaderAndPayload {σ : Type} (file : WritableFile σ) (dest : σ)
    (buf payload : List Nat) : σ × Status :=
  let r1 := file.Append dest buf
  if r1.2.ok then
    let r2 := file.Append r1.1 payload
    if r2.2.ok then file.Flush r2.1 else r2
  else r1

/-- Writer::EmitPhysicalRecord.  The result is `none` when one of its two
assertions fails. -/
def EmitPhysicalRecord {σ : Type} (file : WritableFile σ) (crc : Crc32c) (w : Writer σ)
    (t : RecordType) (ptr : List Nat) (length : Nat) : Option (Writer σ × Status) :=
  if ¬ (length ≤ 0xffff) then none
  else if ¬ ((toSizeT (w.block_offset_ + kHeaderSize) + length) % 18446744073709551616
      ≤ toSizeT kBlockSize) then none
  else
    let buf := FormatHeader crc w.type_crc_ t ptr length
    let r := WriteHeaderAndPayload file w.dest_ buf (ptr.take length)
    some ({ w with dest_ := r.1, block_offset_ := w.block_offset_ + kHeaderSize + length }, r.2)

/-- Ghost record of one iteration of the loop of AddRecord. -/
structure Emission where
  /-- The value of `block_offset_` when the iteration began. -/
  top_offset : Int
  /-- The bytes passed to `Append` as block trailer and the reply, when that call was made. -/
  trailer : Option (List Nat × Status)
  /-- The value of `block_offset_` when EmitPhysicalRecord was called. -/
  offset : Int
  /-- The type passed to EmitPhysicalRecord. -/
  type : RecordType
  /-- The `length` passed to EmitPhysicalRecord. -/
  length : Nat
  /-- The `length` bytes at `ptr` passed to EmitPhysicalRecord. -/
  payload : List Nat
  /-- The status EmitPhysicalRecord returned. -/
  status : Status
  deriving DecidableEq, Repr

/-- The loop variables after one iteration, with the ghost record of the iteration. -/
structure Iter (σ : Type) where
  w : Writer σ
  s : Status
  ptr : List Nat
  left : Nat
  emission : Emission

/-- The block-boundary handling at the top of the loop of AddRecord
(`if (leftover < kHeaderSize) ...`): the writer afterwards, and the trailer
bytes passed to `Append` with the reply, when that call is made.  The reply is
not looked at. -/
def FillTrailer {σ : Type} (file : WritableFile σ) (w : Writer σ) :
    Writer σ × Option (List Nat × Status) :=
  let leftover : Int := kBlockSize - w.block_offset_
  if leftover < kHeaderSize then
    if leftover > 0 then
      let zeros := List.take leftover.toNat [0, 0, 0, 0, 0, 0]
      let r := file.Append w.dest_ zeros
      ({ w with dest_ := r.1, block_offset_ := 0 }, some (zeros, r.2))
    else ({ w with block_offset_ := 0 }, none)
  else (w, none)

/-- The selection of the fragment type from `begin` and `end`. -/
def SelectType (begin_ end_ : Bool) : RecordType :=
  if begin_ && end_ then RecordType.kFullType
  else if begin_ then RecordType.kFirstType
  else if end_ then RecordType.kLastType
  else RecordType.kMiddleType

/-- The body of the `do ... while` loop of Writer::AddRecord (one iteration).
The result is `none` when an assertion fails. -/
def AddRecordBody {σ : Type} (file : WritableFile σ) (crc : Crc32c) (w : Writer σ)
    (ptr : List Nat) (left : Nat) (begin_ : Bool) : Option (Iter σ) :=
  let leftover : Int := kBlockSize - w.block_offset_
  if ¬ (leftover ≥ 0) then none
  else
    let pad := FillTrailer file w
    let w1 := pad.1
    if ¬ (kBlockSize - w1.block_offset_ - kHeaderSize ≥ 0) then none
    else
      let avail : Nat := toSizeT (kBlockSize - w1.block_offset_ - kHeaderSize)
      let fragment_length : Nat := if left < avail then left else avail
      let end_ : Bool := left == fragment_length
      let type : RecordType := SelectType begin_ end_
      match EmitPhysicalRecord file crc w1 type ptr fragment_length with
      | none => none
      | some (w2, s) =>
        some { w := w2, s := s, ptr := ptr.drop fragment_length,
               left := left - fragment_length,
               emission := { top_offset := w.block_offset_, trailer := pad.2,
                             offset := w1.block_offset_, type := type,
                             length := fragment_length,
                             payload := ptr.take fragment_length, status := s } }

/-- How a call of AddRecord ends. -/
inductive Outcome (σ : Type) where
  /-- AddRecord returned status `s`, leaving the writer in state `w`. -/
  | done (w : Writer σ) (s : Status) (emissions : List Emission) : Outcome σ
  /-- An assertion failed. -/
  | assertFailed : Outcome σ
  /-- The iteration bound was reached. -/
  | outOfFuel : Outcome σ

/-- The `do ... while (s.ok() && left > 0)` loop of Writer::AddRecord, at most
`fuel` iterations. -/
def AddRecordLoop {σ : Type} (file : WritableFile σ) (crc : Crc32c) :
    Nat → Writer σ → List Nat → Nat → Bool → Outcome σ
  | 0, _, _, _, _ => Outcome.outOfFuel
  | fuel + 1, w, ptr, left, begin_ =>
    match AddRecordBody file crc w ptr left begin_ with
    | none => Outcome.assertFailed
    | some it =>
      if it.s.ok && decide (it.left > 0) then
        match AddRecordLoop file crc fuel it.w it.ptr it.left false with
        | Outcome.done w' s' es => Outcome.done w' s' (it.emission :: es)
        | o => o
      else Outcome.done it.w it.s [it.emission]

/-- Writer::AddRecord. -/
def AddRecord {σ : Type} (file : WritableFile σ) (crc : Crc32c) (w : Writer σ)
    (slice : List Nat) : Outcome σ :=
  AddRecordLoop file crc (slice.length + 2) w slice slice.length true

/-- A sequence of AddRecord calls on one writer, one per record, whatever each
call returns; the result is the final writer and the statuses returned, or
`none` when a call does not return. -/
def AddRecords {σ : Type} (file : WritableFile σ) (crc : Crc32c) :
    Writer σ → List (List Nat) → Option (Writer σ × List Status)
  | w, [] => some (w, [])
  | w, r :: rs =>
    match AddRecord file crc w r with
    | Outcome.done w' s _ =>
      match AddRecords file crc w' rs with
      | some (w'', ss) => some (w'', s :: ss)
      | none => none
    | _ => none

/-! ## Vocabulary of the statements -/

/-- The block offset at which a fragment starts when the loop iteration begins
at offset `o`: the start of a fresh block when fewer than 7 bytes are left. -/
def startOffset (o : Int) : Int := if kBlockSize - o < kHeaderSize then 0 else o

/-- The payload space of the block at start offset `o`. -/
def availAt (o : Int) : Nat := (kBlockSize - startOffset o - kHeaderSize).toNat

/-- The payload length of the fragment emitted by an iteration that begins at
offset `o` with `left` bytes to go. -/
def fragLen (o : Int) (left : Nat) : Nat := if left < availAt o then left else availAt o

/-- What one iteration of the loop of AddRecord does when the block offset is in
`[0, 32768]` (see `body_some`): the loop variables afterwards and the ghost
record of the iteration. -/
def iterAt {σ : Type} (file : WritableFile σ) (crc : Crc32c) (w : Writer σ)
    (ptr : List Nat) (left : Nat) (b : Bool) : Iter σ :=
  let n := fragLen w.block_offset_ left
  let t := SelectType b (left == n)
  let r := WriteHeaderAndPayload file (FillTrailer file w).1.dest_
    (FormatHeader crc w.type_crc_ t ptr n) (ptr.take n)
  { w := { dest_ := r.1, block_offset_ := startOffset w.block_offset_ + 7 + n,
           type_crc_ := w.type_crc_ },
    s := r.2,
    ptr := ptr.drop n,
    left := left - n,
    emission := { top_offset := w.block_offset_, trailer := (FillTrailer file w).2,
                  offset := startOffset w.block_offset_, type := t, length := n,
                  payload := ptr.take n, status := r.2 } }

/-- The value of four bytes read as a little-endian `uint32_t`. -/
def DecodeFixed32 : List Nat → Nat
  | [b0, b1, b2, b3] => b0 + 256 * b1 + 65536 * b2 + 16777216 * b3
  | _ => 0

/-- The payloads of the emitted fragments, concatenated in emission order. -/
def payloads (es : List Emission) : List Nat := (es.map Emission.payload).flatten

/-- The types of the emitted fragments, in emission order. -/
def types (es : List Emission) : List RecordType := es.map Emission.type

/-- The block-boundary handling seen in the record of one iteration, with
`leftover = kBlockSize - top_offset`: the fragment starts at an offset that
leaves room for its header; with 7 bytes or more left nothing is appended and
the fragment starts where the iteration began; with no byte left nothing is
appended and the fragment starts at offset 0; with 1 to 6 bytes left exactly
`leftover` zero bytes are passed to `Append` and the fragment starts at offset 0. -/
def BlockBoundary (e : Emission) : Prop :=
  0 ≤ e.offset ∧ e.offset + kHeaderSize ≤ kBlockSize ∧
  (kHeaderSize ≤ kBlockSize - e.top_offset → e.trailer = none ∧ e.offset = e.top_offset) ∧
  (kBlockSize - e.top_offset = 0 → e.trailer = none ∧ e.offset = 0) ∧
  (0 < kBlockSize - e.top_offset → kBlockSize - e.top_offset < kHeaderSize →
    e.offset = 0 ∧
    ∃ reply, e.trailer = some (List.replicate (kBlockSize - e.top_offset).toNat 0, reply))

/-- What a call of AddRecord returns and the writer it leaves, when it returns. -/
def Outcome.result {σ : Type} : Outcome σ → Option (Writer σ × Status)
  | Outcome.done w s _ => some (w, s)
  | _ => none

/-- The trailer bytes that reached a recording destination: those passed to
`Append`, when the call was made and succeeded. -/
def reached : Option (List Nat × Status) → List Nat
  | some (zeros, reply) => if reply.ok then zeros else []
  | none => []

/-- The bytes one iteration leaves in a recording destination when its fragment
is emitted in full: the trailer bytes that reached it, then the header and the
payload of the fragment. -/
def emittedBytes (crc : Crc32c) (type_crc : List Nat) (e : Emission) : List Nat :=
  reached e.trailer ++ FormatHeader crc type_crc e.type e.payload e.length ++ e.payload

/-- The trailer bytes of the block-boundary handling at block offset `o`:
`leftover` zero bytes when `0 < leftover < 7`, none otherwise. -/
def padding (o : Int) : List Nat :=
  if 0 < kBlockSize - o ∧ kBlockSize - o < kHeaderSize then
    List.replicate (kBlockSize - o).toNat 0
  else []

/-- A reader of the byte stream, used to state that the stream determines the
records: at block offset `o`, with `acc` the payloads of the record under way,
skip the block trailer when fewer than 7 bytes are left in the block, read a
header (length in bytes 4 and 5, type in byte 6; the checksum is not looked
at), take the payload, and close a record on a Full or Last fragment.  `fuel`
bounds the number of fragments read. -/
def decodeLoop : Nat → Nat → List Nat → List Nat → List (List Nat)
  | 0, _, _, _ => []
  | fuel + 1, o, acc, bytes =>
    if bytes = [] then []
    else
      let skip := if 32768 - o < 7 then 32768 - o else 0
      let o1 := if 32768 - o < 7 then 0 else o
      let frag := bytes.drop skip
      let len := frag.getD 4 0 + 256 * frag.getD 5 0
      let payload := (frag.drop 7).take len
      let rest := (frag.drop 7).drop len
      if frag.getD 6 0 = 1 then payload :: decodeLoop fuel (o1 + 7 + len) [] rest
      else if frag.getD 6 0 = 2 then decodeLoop fuel (o1 + 7 + len) payload rest
      else if frag.getD 6 0 = 3 then decodeLoop fuel (o1 + 7 + len) (acc ++ payload) rest
      else (acc ++ payload) :: decodeLoop fuel (o1 + 7 + len) [] rest

/-- The records read from a byte stream that starts at the beginning of a block. -/
def Decode (bytes : List Nat) : List (List Nat) := decodeLoop bytes.length 0 [] bytes

/-- A destination that never fails. -/
def NeverFails {σ : Type} (file : WritableFile σ) : Prop :=
  (∀ d data, (file.Append d data).2 = Status.OK) ∧ (∀ d, (file.Flush d).2 = Status.OK)

/-- The writer states reachable from either constructor through AddRecord calls,
on a destination `file` and with an arbitrary initial destination state. -/
inductive Reachable {σ : Type} (file : WritableFile σ) (crc : Crc32c) : Writer σ → Prop where
  | new (dest : σ) : Reachable file crc (Writer.new crc dest)
  | newAt (dest : σ) (dest_length : Nat) : Reachable file crc (Writer.newAt crc dest dest_length)
  | addRecord (w w' : Writer σ) (slice : List Nat) (s : Status) (es : List Emission) :
      Reachable file crc w → AddRecord file crc w slice = Outcome.done w' s es →
      Reachable file crc w'

/-! ## One iteration -/

theorem fillTrailer_offset {σ : Type} (file : WritableFile σ) (w : Writer σ) :
    (FillTrailer file w).1.block_offset_ = startOffset w.block_offset_ := by
  unfold FillTrailer startOffset
  simp only []
  split_ifs <;> rfl

theorem fillTrailer_type_crc {σ : Type} (file : WritableFile σ) (w : Writer σ) :
    (FillTrailer file w).1.type_crc_ = w.type_crc_ := by
  unfold FillTrailer
  simp only []
  split_ifs <;> rfl

theorem startOffset_range (o : Int) (h0 : 0 ≤ o) (h1 : o ≤ 32768) :
    0 ≤ startOffset o ∧ startOffset o ≤ 32761 := by
  unfold startOffset kBlockSize kHeaderSize
  split_ifs <;> omega

theorem emit_some {σ : Type} (file : WritableFile σ) (crc : Crc32c) (w : Writer σ)
    (t : RecordType) (ptr : List Nat) (n : Nat)
    (h0 : 0 ≤ w.block_offset_) (h1 : w.block_offset_ + 7 + n ≤ 32768) :
    EmitPhysicalRecord file crc w t ptr n =
      some ({ w with
                dest_ := (WriteHeaderAndPayload file w.dest_
                  (FormatHeader crc w.type_crc_ t ptr n) (ptr.take n)).1,
                block_offset_ := w.block_offset_ + 7 + n },
            (WriteHeaderAndPayload file w.dest_
                  (FormatHeader crc w.type_crc_ t ptr n) (ptr.take n)).2) := by
  unfold EmitPhysicalRecord
  have a1 : n ≤ 0xffff := by omega
  have a2 : (toSizeT (w.block_offset_ + kHeaderSize) + n) % 18446744073709551616
      ≤ toSizeT kBlockSize := by
    unfold toSizeT kHeaderSize kBlockSize
    omega
  rw [if_neg (not_not.mpr a1), if_neg (not_not.mpr a2)]
  simp only [kHeaderSize]

theorem availAt_le (o : Int) (h0 : 0 ≤ o) (h1 : o ≤ 32768) :
    (availAt o : Int) = 32761 - startOffset o ∧ availAt o ≤ 32761 := by
  have h := startOffset_range o h0 h1
  unfold availAt kBlockSize kHeaderSize
  omega

theorem fragLen_le (o : Int) (left : Nat) :
    fragLen o left ≤ left ∧ fragLen o left ≤ availAt o := by
  unfold fragLen
  split_ifs <;> omega

theorem body_some {σ : Type} (file : WritableFile σ) (crc : Crc32c) (w : Writer σ)
    (ptr : List Nat) (left : Nat) (b : Bool)
    (h0 : 0 ≤ w.block_offset_) (h1 : w.block_offset_ ≤ 32768) :
    AddRecordBody file crc w ptr left b = some (iterAt file crc w ptr left b) := by
  have hs := startOffset_range w.block_offset_ h0 h1
  have ha := availAt_le w.block_offset_ h0 h1
  have hf := fragLen_le w.block_offset_ left
  have a1 : kBlockSize - w.block_offset_ ≥ 0 := by unfold kBlockSize; omega
  have a2 : kBlockSize - (FillTrailer file w).1.block_offset_ - kHeaderSize ≥ 0 := by
    rw [fillTrailer_offset]; unfold kBlockSize kHeaderSize; omega
  have a3 : toSizeT (kBlockSize - (FillTrailer file w).1.block_offset_ - kHeaderSize)
      = availAt w.block_offset_ := by
    rw [fillTrailer_offset]; unfold toSizeT availAt kBlockSize kHeaderSize; omega
  have a4 : (if left < availAt w.block_offset_ then left else availAt w.block_offset_)
      = fragLen w.block_offset_ left := rfl
  unfold AddRecordBody
  simp only []
  rw [if_neg (not_not.mpr a1), if_neg (not_not.mpr a2), a3, a4,
    emit_some file crc (FillTrailer file w).1 _ ptr _
      (by rw [fillTrailer_offset]; omega) (by rw [fillTrailer_offset]; omega)]
  simp only [fillTrailer_offset, fillTrailer_type_crc, iterAt]


/-! ## The loop -/

theorem iterAt_left_pos {σ : Type} (file : WritableFile σ) (crc : Crc32c) (w : Writer σ)
    (ptr : List Nat) (left : Nat) (b : Bool)
    (h0 : 0 ≤ w.block_offset_) (h1 : w.block_offset_ ≤ 32768)
    (hl : 0 < (iterAt file crc w ptr left b).left) :
    fragLen w.block_offset_ left = availAt w.block_offset_ ∧
    availAt w.block_offset_ < left ∧
    (iterAt file crc w ptr left b).w.block_offset_ = 32768 := by
  have ha := availAt_le w.block_offset_ h0 h1
  have hl' : 0 < left - fragLen w.block_offset_ left := hl
  have hb : (iterAt file crc w ptr left b).w.block_offset_
      = startOffset w.block_offset_ + 7 + fragLen w.block_offset_ left := rfl
  rw [hb]
  unfold fragLen at hl' ⊢
  split_ifs at hl' ⊢ <;> omega

/-- Proof rule for the loop of AddRecord: a property `P` of a run (the loop
variables at its start; the writer, status and emissions at its end) that holds
of every last iteration and is carried back over every other iteration holds of
every run, and every run from a block offset in `[0, 32768]` ends, given
`left + 2` iterations. -/
theorem AddRecordLoop_rule {σ : Type} (file : WritableFile σ) (crc : Crc32c)
    (P : Writer σ → List Nat → Nat → Bool → Writer σ → Status → List Emission → Prop)
    (hstop : ∀ w ptr left b, 0 ≤ w.block_offset_ → w.block_offset_ ≤ 32768 →
      ¬ ((iterAt file crc w ptr left b).s.ok = true ∧ 0 < (iterAt file crc w ptr left b).left) →
      P w ptr left b (iterAt file crc w ptr left b).w (iterAt file crc w ptr left b).s
        [(iterAt file crc w ptr left b).emission])
    (hstep : ∀ w ptr left b, 0 ≤ w.block_offset_ → w.block_offset_ ≤ 32768 →
      (iterAt file crc w ptr left b).s.ok = true → 0 < (iterAt file crc w ptr left b).left →
      ∀ w' s' es,
        P (iterAt file crc w ptr left b).w (iterAt file crc w ptr left b).ptr
          (iterAt file crc w ptr left b).left false w' s' es →
        P w ptr left b w' s' ((iterAt file crc w ptr left b).emission :: es)) :
    ∀ fuel w ptr left b, 0 ≤ w.block_offset_ → w.block_offset_ ≤ 32768 →
      left + (if startOffset w.block_offset_ = 32761 then 2 else 1) ≤ fuel →
      ∃ w' s es, AddRecordLoop file crc fuel w ptr left b = Outcome.done w' s es ∧
        P w ptr left b w' s es := by
  intro fuel
  induction fuel with
  | zero =>
    intro w ptr left b _ _ hf
    split_ifs at hf <;> omega
  | succ n ih =>
    intro w ptr left b h0 h1 hf
    rw [AddRecordLoop, body_some file crc w ptr left b h0 h1]
    by_cases hc : (iterAt file crc w ptr left b).s.ok = true ∧
        0 < (iterAt file crc w ptr left b).left
    · obtain ⟨hok, hl⟩ := hc
      obtain ⟨hfl, hlt, hoff⟩ := iterAt_left_pos file crc w ptr left b h0 h1 hl
      have hleft : (iterAt file crc w ptr left b).left = left - availAt w.block_offset_ := by
        rw [← hfl]; rfl
      have ha := availAt_le w.block_offset_ h0 h1
      have hfuel : (iterAt file crc w ptr left b).left +
          (if startOffset (iterAt file crc w ptr left b).w.block_offset_ = 32761 then 2 else 1)
          ≤ n := by
        rw [hoff, hleft]
        have : startOffset 32768 = 0 := by decide
        rw [this]
        split_ifs at hf ⊢ <;> omega
      obtain ⟨w', s', es, hrun, hP⟩ := ih (iterAt file crc w ptr left b).w
        (iterAt file crc w ptr left b).ptr (iterAt file crc w ptr left b).left false
        (by rw [hoff]; decide) (by rw [hoff]) hfuel
      refine ⟨w', s', (iterAt file crc w ptr left b).emission :: es, ?_,
        hstep w ptr left b h0 h1 hok hl w' s' es hP⟩
      simp only [hok, hl, decide_True, Bool.and_self, if_true, hrun]
    · refine ⟨_, _, _, ?_, hstop w ptr left b h0 h1 hc⟩
      have hc' : ((iterAt file crc w ptr left b).s.ok &&
          decide ((iterAt file crc w ptr left b).left > 0)) = false := by
        rcases Bool.eq_false_or_eq_true ((iterAt file crc w ptr left b).s.ok) with h | h
        · have : ¬ 0 < (iterAt file crc w ptr left b).left := fun hl => hc ⟨h, hl⟩
          simp [h, this]
        · simp [h]
      simp only [hc', Bool.false_eq_true, if_false]

/-- The proof rule of the loop, for a call of AddRecord. -/
theorem AddRecord_rule {σ : Type} (file : WritableFile σ) (crc : Crc32c)
    (P : Writer σ → List Nat → Nat → Bool → Writer σ → Status → List Emission → Prop)
    (hstop : ∀ w ptr left b, 0 ≤ w.block_offset_ → w.block_offset_ ≤ 32768 →
      ¬ ((iterAt file crc w ptr left b).s.ok = true ∧ 0 < (iterAt file crc w ptr left b).left) →
      P w ptr left b (iterAt file crc w ptr left b).w (iterAt file crc w ptr left b).s
        [(iterAt file crc w ptr left b).emission])
    (hstep : ∀ w ptr left b, 0 ≤ w.block_offset_ → w.block_offset_ ≤ 32768 →
      (iterAt file crc w ptr left b).s.ok = true → 0 < (iterAt file crc w ptr left b).left →
      ∀ w' s' es,
        P (iterAt file crc w ptr left b).w (iterAt file crc w ptr left b).ptr
          (iterAt file crc w ptr left b).left false w' s' es →
        P w ptr left b w' s' ((iterAt file crc w ptr left b).emission :: es))
    (w : Writer σ) (slice : List Nat)
    (h0 : 0 ≤ w.block_offset_) (h1 : w.block_offset_ ≤ 32768) :
    ∃ w' s es, AddRecord file crc w slice = Outcome.done w' s es ∧
      P w slice slice.length true w' s es := by
  unfold AddRecord
  apply AddRecordLoop_rule file crc P hstop hstep _ w slice slice.length true h0 h1
  split_ifs <;> omega

/-! ## A destination that never fails -/

theorem memFile_neverFails : NeverFails memFile :=
  ⟨fun _ _ => rfl, fun _ => rfl⟩

theorem write_neverFails {σ : Type} (file : WritableFile σ) (hf : NeverFails file)
    (d : σ) (buf payload : List Nat) :
    (WriteHeaderAndPayload file d buf payload).2 = Status.OK := by
  unfold WriteHeaderAndPayload
  simp only [hf.1, hf.2, Status.ok, if_true]

theorem iterAt_neverFails {σ : Type} (file : WritableFile σ) (hf : NeverFails file)
    (crc : Crc32c) (w : Writer σ) (ptr : List Nat) (left : Nat) (b : Bool) :
    (iterAt file crc w ptr left b).s = Status.OK :=
  write_neverFails file hf _ _ _

/-- C1 (round trip).  On a destination that never fails, from every writer
state whose block offset is in `[0, 32768]` and for every byte sequence `S`,
AddRecord returns OK and the payloads of the fragments it emits, concatenated in
emission order, are exactly `S`. -/
theorem AddRecord_round_trip {σ : Type} (file : WritableFile σ) (crc : Crc32c)
    (hf : NeverFails file) (w : Writer σ) (S : List Nat)
    (h0 : 0 ≤ w.block_offset_) (h1 : w.block_offset_ ≤ 32768) :
    ∃ w' es, AddRecord file crc w S = Outcome.done w' Status.OK es ∧ payloads es = S := by
  obtain ⟨w', s, es, hrun, hP⟩ := AddRecord_rule file crc
    (fun _ ptr left _ _ s es => left = ptr.length → s = Status.OK ∧ payloads es = ptr)
    (by
      intro w ptr left b _ _ hc hlen
      refine ⟨iterAt_neverFails file hf crc w ptr left b, ?_⟩
      have hz : ¬ 0 < left - fragLen w.block_offset_ left := fun hl =>
        hc ⟨by rw [iterAt_neverFails file hf crc w ptr left b]; rfl, hl⟩
      have hle := fragLen_le w.block_offset_ left
      have hfl : fragLen w.block_offset_ left = ptr.length := by omega
      show ([List.take (fragLen w.block_offset_ left) ptr]).flatten = ptr
      simp [hfl])
    (by
      intro w ptr left b _ _ _ _ w' s' es ih hlen
      have hle := fragLen_le w.block_offset_ left
      obtain ⟨hs, hp⟩ := ih (by
        show left - fragLen w.block_offset_ left
          = (List.drop (fragLen w.block_offset_ left) ptr).length
        simp [hlen])
      refine ⟨hs, ?_⟩
      show (List.take (fragLen w.block_offset_ left) ptr :: es.map Emission.payload).flatten = ptr
      rw [List.flatten_cons]
      have hp' : (es.map Emission.payload).flatten
          = List.drop (fragLen w.block_offset_ left) ptr := hp
      rw [hp', List.take_append_drop])
    w S h0 h1
  obtain ⟨hs, hp⟩ := hP rfl
  subst hs
  exact ⟨w', es, hrun, hp⟩

/-- Witness of C1: a three-byte record written 3 bytes before a block boundary. -/
theorem AddRecord_round_trip_witness :
    ∃ w' es, AddRecord memFile crc32c.ref (Writer.newAt crc32c.ref [] 32765) [1, 2, 3]
        = Outcome.done w' Status.OK es ∧ payloads es = [1, 2, 3] :=
  AddRecord_round_trip memFile crc32c.ref memFile_neverFails
    (Writer.newAt crc32c.ref [] 32765) [1, 2, 3] (by decide) (by decide)

/-- C2 (type sequence).  On a destination that never fails, from every writer
state whose block offset is in `[0, 32768]` and for every record `S`, the types
of the fragments AddRecord emits are the single type Full, or First, then
`k ≥ 0` times Middle, then Last; they are the single Full exactly when `|S|` is
at most the payload space `32768 - offset - 7` of the block where the record
starts, the offset taken after the block-boundary handling. -/
theorem AddRecord_type_sequence {σ : Type} (file : WritableFile σ) (crc : Crc32c)
    (hf : NeverFails file) (w : Writer σ) (S : List Nat)
    (h0 : 0 ≤ w.block_offset_) (h1 : w.block_offset_ ≤ 32768) :
    ∃ w' es, AddRecord file crc w S = Outcome.done w' Status.OK es ∧
      (types es = [RecordType.kFullType] ∨
        ∃ k, types es = RecordType.kFirstType ::
          (List.replicate k RecordType.kMiddleType ++ [RecordType.kLastType])) ∧
      (types es = [RecordType.kFullType] ↔
        (S.length : Int) ≤ kBlockSize - startOffset w.block_offset_ - kHeaderSize) := by
  obtain ⟨w', s, es, hrun, hP⟩ := AddRecord_rule file crc
    (fun w _ left b _ s es => s = Status.OK ∧
      (b = true →
        (types es = [RecordType.kFullType] ∧ left ≤ availAt w.block_offset_) ∨
        ((∃ k, types es = RecordType.kFirstType ::
          (List.replicate k RecordType.kMiddleType ++ [RecordType.kLastType])) ∧
          availAt w.block_offset_ < left)) ∧
      (b = false →
        ∃ k, types es = List.replicate k RecordType.kMiddleType ++ [RecordType.kLastType]))
    (by
      intro w ptr left b _ _ hc
      have hz : ¬ 0 < left - fragLen w.block_offset_ left := fun hl =>
        hc ⟨by rw [iterAt_neverFails file hf crc w ptr left b]; rfl, hl⟩
      have hle := fragLen_le w.block_offset_ left
      have hfl : left = fragLen w.block_offset_ left := by omega
      have hty : types [(iterAt file crc w ptr left b).emission]
          = [SelectType b (left == fragLen w.block_offset_ left)] := rfl
      have hend : (left == fragLen w.block_offset_ left) = true := by
        rw [← hfl]; simp
      refine ⟨iterAt_neverFails file hf crc w ptr left b, ?_, ?_⟩
      · intro hb
        left
        refine ⟨?_, by omega⟩
        rw [hty, hend, hb]; rfl
      · intro hb
        refine ⟨0, ?_⟩
        rw [hty, hend, hb]; rfl)
    (by
      intro w ptr left b h0 h1 _ hl w' s' es ih
      obtain ⟨hfl, hlt, _⟩ := iterAt_left_pos file crc w ptr left b h0 h1 hl
      obtain ⟨hs, _, ihf⟩ := ih
      obtain ⟨k, hk⟩ := ihf rfl
      have hty : types ((iterAt file crc w ptr left b).emission :: es)
          = SelectType b (left == fragLen w.block_offset_ left) :: types es := rfl
      have hend : (left == fragLen w.block_offset_ left) = false := by
        rw [hfl]; simp; omega
      refine ⟨hs, ?_, ?_⟩
      · intro hb
        right
        refine ⟨⟨k, ?_⟩, hlt⟩
        rw [hty, hend, hb, hk]; rfl
      · intro hb
        refine ⟨k + 1, ?_⟩
        rw [hty, hend, hb, hk]; rfl)
    w S h0 h1
  obtain ⟨hs, hb, _⟩ := hP
  subst hs
  have ha := availAt_le w.block_offset_ h0 h1
  refine ⟨w', es, hrun, ?_, ?_⟩
  · rcases hb rfl with ⟨h, _⟩ | ⟨h, _⟩
    · exact Or.inl h
    · exact Or.inr h
  · rcases hb rfl with ⟨h, hle⟩ | ⟨⟨k, h⟩, hlt⟩
    · constructor
      · intro _
        unfold kBlockSize kHeaderSize
        omega
      · intro _
        exact h
    · constructor
      · intro h'
        rw [h] at h'
        exact absurd h' (by simp)
      · intro h'
        unfold kBlockSize kHeaderSize at h'
        omega

/-- Witness of C2: a two-byte record written at offset 32761, where the block
has room for a header only, is emitted as First (empty) and Last. -/
theorem AddRecord_type_sequence_witness :
    ∃ w' es, AddRecord memFile crc32c.ref (Writer.newAt crc32c.ref [] 32761) [97, 98]
        = Outcome.done w' Status.OK es ∧
      (types es = [RecordType.kFullType] ∨
        ∃ k, types es = RecordType.kFirstType ::
          (List.replicate k RecordType.kMiddleType ++ [RecordType.kLastType])) ∧
      (types es = [RecordType.kFullType] ↔
        (([97, 98] : List Nat).length : Int) ≤ kBlockSize -
          startOffset (Writer.newAt crc32c.ref ([] : List Nat) 32761).block_offset_ -
          kHeaderSize) :=
  AddRecord_type_sequence memFile crc32c.ref memFile_neverFails
    (Writer.newAt crc32c.ref [] 32761) [97, 98] (by decide) (by decide)

/-! ## Block boundaries -/

theorem take_zeros (n : Nat) (h : n ≤ 6) :
    List.take n [0, 0, 0, 0, 0, 0] = List.replicate n 0 := by
  interval_cases n <;> rfl

theorem iterAt_blockBoundary {σ : Type} (file : WritableFile σ) (crc : Crc32c) (w : Writer σ)
    (ptr : List Nat) (left : Nat) (b : Bool)
    (h0 : 0 ≤ w.block_offset_) (h1 : w.block_offset_ ≤ 32768) :
    BlockBoundary (iterAt file crc w ptr left b).emission := by
  have hs := startOffset_range w.block_offset_ h0 h1
  have ht : (iterAt file crc w ptr left b).emission.trailer = (FillTrailer file w).2 := rfl
  have ho : (iterAt file crc w ptr left b).emission.offset = startOffset w.block_offset_ := rfl
  have hp : (iterAt file crc w ptr left b).emission.top_offset = w.block_offset_ := rfl
  unfold BlockBoundary
  rw [ht, ho, hp]
  refine ⟨hs.1, by unfold kHeaderSize kBlockSize; omega, ?_, ?_, ?_⟩
  · intro h
    have h' : ¬ kBlockSize - w.block_offset_ < kHeaderSize := by omega
    unfold FillTrailer startOffset
    simp only [h', if_false, and_self]
  · intro h
    have h' : kBlockSize - w.block_offset_ < kHeaderSize := by
      rw [h]; decide
    have h'' : ¬ kBlockSize - w.block_offset_ > 0 := by omega
    unfold FillTrailer startOffset
    simp only [h', h'', if_true, if_false, and_self]
  · intro hpos hlt
    have hpos' : kBlockSize - w.block_offset_ > 0 := hpos
    unfold FillTrailer startOffset
    simp only [hlt, hpos', if_true, true_and]
    rw [take_zeros _ (by unfold kBlockSize kHeaderSize at *; omega)]
    exact ⟨_, rfl⟩

/-- C3 (block boundary).  From every writer state whose block offset is in
`[0, 32768]`, for every record and whatever the destination replies, AddRecord
returns, and every fragment it emits starts at a block offset `o` with
`o + 7 ≤ 32768`; trailer bytes are passed to `Append` before a fragment only
when `0 < leftover < 7`, and then exactly `leftover` zero bytes, the fragment
starting at offset 0; with `leftover = 0` nothing is appended and the fragment
starts at offset 0.  So after a record of 32761 bytes written from offset 0 the
offset is 32768, and the first fragment of the AddRecord that follows starts at
offset 0 with no trailer. -/
theorem AddRecord_block_boundary {σ : Type} (file : WritableFile σ) (crc : Crc32c)
    (w : Writer σ) (S : List Nat)
    (h0 : 0 ≤ w.block_offset_) (h1 : w.block_offset_ ≤ 32768) :
    ∃ w' s es, AddRecord file crc w S = Outcome.done w' s es ∧
      (∀ e ∈ es, BlockBoundary e) ∧
      (w.block_offset_ = 0 → S.length = 32761 →
        w'.block_offset_ = 32768 ∧
        ∀ S2, ∃ w'' s2 e rest, AddRecord file crc w' S2 = Outcome.done w'' s2 (e :: rest) ∧
          e.top_offset = 32768 ∧ e.trailer = none ∧ e.offset = 0) := by
  have key : ∀ (w : Writer σ) (S : List Nat), 0 ≤ w.block_offset_ → w.block_offset_ ≤ 32768 →
      ∃ w' s es, AddRecord file crc w S = Outcome.done w' s es ∧
        (∀ e ∈ es, BlockBoundary e) ∧
        (∃ e rest, es = e :: rest ∧ e.top_offset = w.block_offset_) ∧
        (S.length ≤ availAt w.block_offset_ →
          w'.block_offset_ = startOffset w.block_offset_ + 7 + S.length) := by
    intro w S h0 h1
    exact AddRecord_rule file crc
      (fun w _ left _ w' _ es =>
        (∀ e ∈ es, BlockBoundary e) ∧
        (∃ e rest, es = e :: rest ∧ e.top_offset = w.block_offset_) ∧
        (left ≤ availAt w.block_offset_ →
          w'.block_offset_ = startOffset w.block_offset_ + 7 + left))
      (by
        intro w ptr left b h0 h1 _
        refine ⟨?_, ⟨_, _, rfl, rfl⟩, ?_⟩
        · intro e he
          rw [List.mem_singleton.mp he]
          exact iterAt_blockBoundary file crc w ptr left b h0 h1
        · intro hle
          show startOffset w.block_offset_ + 7 + (fragLen w.block_offset_ left : Int) = _
          unfold fragLen
          split_ifs <;> omega)
      (by
        intro w ptr left b h0 h1 _ hl w' s' es ih
        obtain ⟨_, hlt, _⟩ := iterAt_left_pos file crc w ptr left b h0 h1 hl
        refine ⟨?_, ⟨_, _, rfl, rfl⟩, ?_⟩
        · intro e he
          rcases List.mem_cons.mp he with h | h
          · rw [h]
            exact iterAt_blockBoundary file crc w ptr left b h0 h1
          · exact ih.1 e h
        · intro hle
          omega)
      w S h0 h1
  obtain ⟨w', s, es, hrun, hall, _, hoff⟩ := key w S h0 h1
  refine ⟨w', s, es, hrun, hall, ?_⟩
  intro hw hS
  have ha : availAt w.block_offset_ = 32761 := by rw [hw]; decide
  have hso : startOffset w.block_offset_ = 0 := by rw [hw]; decide
  have hw' : w'.block_offset_ = 32768 := by
    rw [hoff (by omega), hso, hS]; rfl
  refine ⟨hw', ?_⟩
  intro S2
  obtain ⟨w'', s2, es2, hrun2, hall2, ⟨e, rest, hes, htop⟩, _⟩ :=
    key w' S2 (by rw [hw']; decide) (by rw [hw'])
  subst hes
  have hb := hall2 e (List.mem_cons_self _ _)
  rw [hw'] at htop
  obtain ⟨_, _, _, hzero, _⟩ := hb
  have hz := hzero (by rw [htop]; decide)
  exact ⟨w'', s2, e, rest, hrun2, htop, hz.1, hz.2⟩

/-- Witness of C3: a record of 32761 bytes written from offset 0, and the
AddRecord that follows it. -/
theorem AddRecord_block_boundary_witness :
    ∃ w' s es, AddRecord memFile crc32c.ref (Writer.new crc32c.ref [])
        (List.replicate 32761 0) = Outcome.done w' s es ∧
      (∀ e ∈ es, BlockBoundary e) ∧
      w'.block_offset_ = 32768 ∧
      ∀ S2, ∃ w'' s2 e rest, AddRecord memFile crc32c.ref w' S2
          = Outcome.done w'' s2 (e :: rest) ∧
        e.top_offset = 32768 ∧ e.trailer = none ∧ e.offset = 0 :=
  match AddRecord_block_boundary memFile crc32c.ref (Writer.new crc32c.ref [])
      (List.replicate 32761 0) (le_refl _) (by decide) with
  | ⟨w', s, es, hrun, hall, hfill⟩ =>
    ⟨w', s, es, hrun, hall, (hfill rfl (List.length_replicate _ _)).1,
      (hfill rfl (List.length_replicate _ _)).2⟩

/-! ## The header -/

theorem initTypeCrc_getD (crc : Crc32c) (t : RecordType) :
    (InitTypeCrc crc).getD t.toNat 0 = crc.Value [t.toNat] % 4294967296 := by
  cases t <;> rfl

theorem decode_encodeFixed32 (v : Nat) (h : v < 4294967296) :
    DecodeFixed32 (EncodeFixed32 v) = v := by
  unfold EncodeFixed32 DecodeFixed32
  simp only [Nat.shiftRight_eq_div_pow]
  omega

theorem mask_lt (c : Nat) : crc32c.Mask c < 4294967296 := by
  unfold crc32c.Mask
  exact Nat.mod_lt _ (by decide)

theorem formatHeader_eq (crc : Crc32c) (hc : crc.Contract) (t : RecordType) (p : List Nat)
    (hp : p.length ≤ 65535) :
    FormatHeader crc (InitTypeCrc crc) t p p.length =
      EncodeFixed32 (crc32c.Mask (crc.Value (t.toNat :: p))) ++
        [p.length % 256, p.length / 256, t.toNat] := by
  obtain ⟨hv, he, hx⟩ := hc
  unfold FormatHeader
  simp only [initTypeCrc_getD, List.take_length, Nat.shiftRight_eq_div_pow]
  rw [Nat.mod_eq_of_lt (hv _), Nat.mod_eq_of_lt (he _ _), hx]
  have h5 : p.length / 2 ^ 8 % 256 = p.length / 256 := by omega
  have h6 : t.toNat % 256 = t.toNat := by cases t <;> rfl
  rw [h5, h6]
  rfl

theorem scripted_write_ok (env : List (Call × Status) → Call → Status) (d : Recorder)
    (buf payload : List Nat)
    (h : (WriteHeaderAndPayload (scripted env) d buf payload).2 = Status.OK) :
    (WriteHeaderAndPayload (scripted env) d buf payload).1.contents
      = d.contents ++ (buf ++ payload) := by
  unfold WriteHeaderAndPayload scripted at *
  simp only [] at h ⊢
  split_ifs at h ⊢ with h1 h2
  · simp [h1, h2]
  · exfalso; apply h2; dsimp only at h; rw [h]; rfl
  · exfalso; apply h1; dsimp only at h; rw [h]; rfl

theorem emit_result {σ : Type} (file : WritableFile σ) (crc : Crc32c) (w w' : Writer σ)
    (t : RecordType) (ptr : List Nat) (n : Nat) (s : Status)
    (h : EmitPhysicalRecord file crc w t ptr n = some (w', s)) :
    w'.dest_ = (WriteHeaderAndPayload file w.dest_
        (FormatHeader crc w.type_crc_ t ptr n) (ptr.take n)).1 ∧
    s = (WriteHeaderAndPayload file w.dest_
        (FormatHeader crc w.type_crc_ t ptr n) (ptr.take n)).2 ∧
    w'.block_offset_ = w.block_offset_ + 7 + n ∧ w'.type_crc_ = w.type_crc_ := by
  unfold EmitPhysicalRecord at h
  split_ifs at h
  simp only [Option.some.injEq, Prod.mk.injEq] at h
  obtain ⟨hw, hs⟩ := h
  subst hw
  exact ⟨rfl, hs.symm, rfl, rfl⟩

/-- C4 (header layout).  For every type tag `t` and payload `p` with
`|p| ≤ 65535`, when EmitPhysicalRecord of a constructed writer (its seed table
is the one InitTypeCrc computes) returns OK on a recording destination, the
destination holds exactly `7 + |p|` bytes more: the four bytes of
`Mask(Extend(Value([t]), p))`, least significant first, which is the masked
checksum `Mask(Value(t :: p))` of the type byte followed by the payload; then
`|p| mod 256`, `|p| div 256` and `t`; then the bytes of `p`.  `Mask(c)` is
`(rotate_right(c, 15) + 0xa282ead8) mod 2^32`. -/
theorem EmitPhysicalRecord_header_layout (env : List (Call × Status) → Call → Status)
    (crc : Crc32c) (hc : crc.Contract) (w w' : Writer Recorder)
    (htc : w.type_crc_ = InitTypeCrc crc) (t : RecordType) (p : List Nat)
    (hp : p.length ≤ 65535)
    (hok : EmitPhysicalRecord (scripted env) crc w t p p.length = some (w', Status.OK)) :
    w'.dest_.contents = w.dest_.contents ++
      (EncodeFixed32 (crc32c.Mask (crc.Extend (crc.Value [t.toNat]) p)) ++
        [p.length % 256, p.length / 256, t.toNat] ++ p) ∧
    crc.Extend (crc.Value [t.toNat]) p = crc.Value (t.toNat :: p) ∧
    DecodeFixed32 (((w'.dest_.contents.drop w.dest_.contents.length)).take 4)
      = crc32c.Mask (crc.Value (t.toNat :: p)) ∧
    w'.dest_.contents.length = w.dest_.contents.length + 7 + p.length ∧
    (∀ c, crc32c.Mask c =
      (((c >>> 15) ||| ((c <<< 17) % 4294967296)) + 0xa282ead8) % 4294967296) := by
  obtain ⟨hd, hs, _, _⟩ := emit_result _ _ _ _ _ _ _ _ hok
  have hx : crc.Extend (crc.Value [t.toNat]) p = crc.Value (t.toNat :: p) := hc.2.2 _ _
  have hcont := scripted_write_ok env w.dest_ _ _ hs.symm
  rw [← hd, htc, formatHeader_eq crc hc t p hp, List.take_length] at hcont
  rw [hx]
  refine ⟨hcont, rfl, ?_, ?_, fun _ => rfl⟩
  · rw [hcont, List.drop_left]
    exact decode_encodeFixed32 _ (mask_lt _)
  · rw [hcont]
    simp [EncodeFixed32]
    omega

/-! ### The reference checksum meets the contract -/

theorem refBit_lt (c : Nat) : crc32c.refBit c < 4294967296 :=
  Nat.mod_lt _ (by decide)

theorem refFold_lt (data : List Nat) :
    ∀ c, c < 4294967296 → data.foldl crc32c.refByte c < 4294967296 := by
  induction data with
  | nil => intro c h; exact h
  | cons b bs ih => intro c _; exact ih _ (refBit_lt _)

theorem xor_ones_lt (x : Nat) (h : x < 4294967296) : x ^^^ 0xffffffff < 4294967296 :=
  Nat.xor_lt_two_pow (n := 32) h (by decide)

theorem ref_contract : crc32c.ref.Contract := by
  have hinit : ∀ i : Nat, (i ^^^ 0xffffffff) % 4294967296 < 4294967296 :=
    fun i => Nat.mod_lt _ (by decide)
  refine ⟨fun data => ?_, fun init data => ?_, fun a b => ?_⟩
  · exact xor_ones_lt _ (refFold_lt data _ (hinit 0))
  · exact xor_ones_lt _ (refFold_lt data _ (hinit init))
  · show crc32c.refExtend (crc32c.refExtend 0 a) b = crc32c.refExtend 0 (a ++ b)
    unfold crc32c.refExtend
    have hX := refFold_lt a _ (hinit 0)
    rw [Nat.xor_assoc, Nat.xor_self, Nat.xor_zero, Nat.mod_eq_of_lt hX, List.foldl_append]

/-- Witness of C4: the Full fragment of the one-byte record `a`, emitted by a
fresh writer with the reference CRC-32C. -/
theorem EmitPhysicalRecord_header_layout_witness :
    ([181, 205, 11, 162, 1, 0, 1, 97] : List Nat) = [] ++
      (EncodeFixed32 (crc32c.Mask (crc32c.ref.Extend (crc32c.ref.Value [1]) [97])) ++
        [1 % 256, 1 / 256, 1] ++ [97]) ∧
    crc32c.ref.Extend (crc32c.ref.Value [1]) [97] = crc32c.ref.Value [1, 97] ∧
    DecodeFixed32 ((([181, 205, 11, 162, 1, 0, 1, 97] : List Nat).drop 0).take 4)
      = crc32c.Mask (crc32c.ref.Value [1, 97]) ∧
    ([181, 205, 11, 162, 1, 0, 1, 97] : List Nat).length = 0 + 7 + 1 ∧
    (∀ c, crc32c.Mask c =
      (((c >>> 15) ||| ((c <<< 17) % 4294967296)) + 0xa282ead8) % 4294967296) :=
  EmitPhysicalRecord_header_layout (fun _ _ => Status.OK) crc32c.ref ref_contract
    (Writer.new crc32c.ref ⟨[], []⟩)
    { dest_ := ⟨[181, 205, 11, 162, 1, 0, 1, 97],
        [(Call.Append [181, 205, 11, 162, 1, 0, 1], Status.OK),
         (Call.Append [97], Status.OK), (Call.Flush, Status.OK)]⟩,
      block_offset_ := 8, type_crc_ := InitTypeCrc crc32c.ref }
    rfl RecordType.kFullType [97] (by decide) rfl

/-! ## Resuming a log -/

theorem formatHeader_length (crc : Crc32c) (tc : List Nat) (t : RecordType)
    (ptr : List Nat) (n : Nat) : (FormatHeader crc tc t ptr n).length = 7 := rfl

theorem memFile_write (d buf payload : List Nat) :
    WriteHeaderAndPayload memFile d buf payload = (d ++ buf ++ payload, Status.OK) := rfl

theorem memFile_fillTrailer (w : Writer (List Nat))
    (h0 : 0 ≤ w.block_offset_) (h1 : w.block_offset_ ≤ 32768) :
    ∃ pad : List Nat, (FillTrailer memFile w).1.dest_ = w.dest_ ++ pad ∧
      ((pad.length : Int) + w.block_offset_) % 32768 = startOffset w.block_offset_ := by
  unfold FillTrailer startOffset kBlockSize kHeaderSize
  by_cases h : (32768 : Int) - w.block_offset_ < 7
  · by_cases h' : (32768 : Int) - w.block_offset_ > 0
    · refine ⟨List.take (32768 - w.block_offset_).toNat [0, 0, 0, 0, 0, 0], ?_, ?_⟩
      · simp only [h, h', if_true]; rfl
      · rw [take_zeros _ (by omega), List.length_replicate]
        simp only [h, if_true]
        omega
    · refine ⟨[], ?_, ?_⟩
      · simp only [h, h', if_true, if_false, List.append_nil]
      · simp only [h, if_true, List.length_nil]
        omega
  · refine ⟨[], ?_, ?_⟩
    · simp only [h, if_false, List.append_nil]
    · simp only [h, if_false, List.length_nil]
      omega

/-- One iteration on the never-failing destination keeps the block offset
congruent to the length of the destination. -/
theorem memFile_iterAt (crc : Crc32c) (w : Writer (List Nat)) (ptr : List Nat) (left : Nat)
    (b : Bool) (h0 : 0 ≤ w.block_offset_) (h1 : w.block_offset_ ≤ 32768)
    (hlen : left = ptr.length)
    (hal : (w.dest_.length : Int) % 32768 = w.block_offset_ % 32768) :
    ((iterAt memFile crc w ptr left b).w.dest_.length : Int) % 32768
        = (iterAt memFile crc w ptr left b).w.block_offset_ % 32768 ∧
    (∃ app, (iterAt memFile crc w ptr left b).w.dest_ = w.dest_ ++ app) ∧
    (iterAt memFile crc w ptr left b).left = (iterAt memFile crc w ptr left b).ptr.length ∧
    7 ≤ (iterAt memFile crc w ptr left b).w.block_offset_ ∧
    (iterAt memFile crc w ptr left b).w.block_offset_ ≤ 32768 := by
  obtain ⟨pad, hpad, hpl⟩ := memFile_fillTrailer w h0 h1
  have hs := startOffset_range w.block_offset_ h0 h1
  have ha := availAt_le w.block_offset_ h0 h1
  have hf := fragLen_le w.block_offset_ left
  have hd : (iterAt memFile crc w ptr left b).w.dest_
      = w.dest_ ++ (pad ++ FormatHeader crc w.type_crc_
          (SelectType b (left == fragLen w.block_offset_ left)) ptr
          (fragLen w.block_offset_ left) ++ ptr.take (fragLen w.block_offset_ left)) := by
    show (WriteHeaderAndPayload memFile (FillTrailer memFile w).1.dest_ _ _).1 = _
    rw [memFile_write, hpad]
    simp only [List.append_assoc]
  have ho : (iterAt memFile crc w ptr left b).w.block_offset_
      = startOffset w.block_offset_ + 7 + fragLen w.block_offset_ left := rfl
  have hl : (iterAt memFile crc w ptr left b).left = left - fragLen w.block_offset_ left := rfl
  have hp : (iterAt memFile crc w ptr left b).ptr
      = ptr.drop (fragLen w.block_offset_ left) := rfl
  refine ⟨?_, ⟨_, hd⟩, ?_, by rw [ho]; omega, by rw [ho]; omega⟩
  · rw [hd, ho]
    simp only [List.length_append, formatHeader_length, List.length_take]
    rw [Nat.min_eq_left (by omega)]
    push_cast
    omega
  · rw [hl, hp, List.length_drop, hlen]

/-- A call of AddRecord on the never-failing destination keeps the block
offset congruent to the length of the destination, and only appends. -/
theorem memFile_addRecord (crc : Crc32c) (w : Writer (List Nat)) (S : List Nat)
    (h0 : 0 ≤ w.block_offset_) (h1 : w.block_offset_ ≤ 32768)
    (hal : (w.dest_.length : Int) % 32768 = w.block_offset_ % 32768) :
    ∃ w' es, AddRecord memFile crc w S = Outcome.done w' Status.OK es ∧
      (w'.dest_.length : Int) % 32768 = w'.block_offset_ % 32768 ∧
      (∃ app, w'.dest_ = w.dest_ ++ app) ∧
      7 ≤ w'.block_offset_ ∧ w'.block_offset_ ≤ 32768 ∧ w'.type_crc_ = w.type_crc_ := by
  obtain ⟨w', s, es, hrun, hP⟩ := AddRecord_rule memFile crc
    (fun w ptr left _ w' s _ => left = ptr.length →
      (w.dest_.length : Int) % 32768 = w.block_offset_ % 32768 →
      s = Status.OK ∧
      (w'.dest_.length : Int) % 32768 = w'.block_offset_ % 32768 ∧
      (∃ app, w'.dest_ = w.dest_ ++ app) ∧
      7 ≤ w'.block_offset_ ∧ w'.block_offset_ ≤ 32768 ∧ w'.type_crc_ = w.type_crc_)
    (by
      intro w ptr left b h0 h1 _ hlen hal
      obtain ⟨h, happ, _, h7, h8⟩ := memFile_iterAt crc w ptr left b h0 h1 hlen hal
      exact ⟨rfl, h, happ, h7, h8, rfl⟩)
    (by
      intro w ptr left b h0 h1 _ _ w' s' es ih hlen hal
      obtain ⟨h, ⟨app, happ⟩, hl, _, _⟩ := memFile_iterAt crc w ptr left b h0 h1 hlen hal
      obtain ⟨hs, hal', ⟨app', happ'⟩, h7, h8, htc⟩ := ih hl h
      refine ⟨hs, hal', ⟨app ++ app', ?_⟩, h7, h8, htc⟩
      rw [happ', happ, List.append_assoc])
    w S h0 h1
  obtain ⟨hs, h⟩ := hP rfl hal
  subst hs
  exact ⟨w', es, hrun, h⟩

/-- A sequence of AddRecord calls on the never-failing destination. -/
theorem memFile_addRecords (crc : Crc32c) (rs : List (List Nat)) :
    ∀ w : Writer (List Nat), 0 ≤ w.block_offset_ → w.block_offset_ ≤ 32768 →
      (w.dest_.length : Int) % 32768 = w.block_offset_ % 32768 →
      ∃ w' ss, AddRecords memFile crc w rs = some (w', ss) ∧
        (w'.dest_.length : Int) % 32768 = w'.block_offset_ % 32768 ∧
        (∃ app, w'.dest_ = w.dest_ ++ app) ∧
        0 ≤ w'.block_offset_ ∧ w'.block_offset_ ≤ 32768 ∧ w'.type_crc_ = w.type_crc_ ∧
        (rs = [] → w' = w) ∧ (rs ≠ [] → 7 ≤ w'.block_offset_) := by
  induction rs with
  | nil =>
    intro w h0 h1 hal
    exact ⟨w, [], rfl, hal, ⟨[], by simp⟩, h0, h1, rfl, fun _ => rfl, fun h => absurd rfl h⟩
  | cons r rs ih =>
    intro w h0 h1 hal
    obtain ⟨w1, es, hrun, hal1, ⟨app1, happ1⟩, h7, h8, htc1⟩ :=
      memFile_addRecord crc w r h0 h1 hal
    obtain ⟨w2, ss, hrun2, hal2, ⟨app2, happ2⟩, h20, h21, htc2, hnil, hcons⟩ :=
      ih w1 (by omega) h8 hal1
    refine ⟨w2, Status.OK :: ss, ?_, hal2, ⟨app1 ++ app2, ?_⟩, h20, h21, ?_,
      fun h => absurd h (by simp), fun _ => ?_⟩
    · rw [AddRecords, hrun]
      simp only [hrun2]
    · rw [happ2, happ1, List.append_assoc]
    · rw [htc2, htc1]
    · by_cases hrs : rs = []
      · rw [hnil hrs]; exact h7
      · exact hcons hrs

/-- The loop started at the very end of a block (offset 32768) and the loop
started at the beginning of a block (offset 0) return the same status and leave
the same writer. -/
theorem loop_resume {σ : Type} (file : WritableFile σ) (crc : Crc32c) (d : σ)
    (tc : List Nat) (n : Nat) (ptr : List Nat) (left : Nat) (b : Bool) :
    (AddRecordLoop file crc (n + 1)
        { dest_ := d, block_offset_ := 32768, type_crc_ := tc } ptr left b).result =
    (AddRecordLoop file crc (n + 1)
        { dest_ := d, block_offset_ := 0, type_crc_ := tc } ptr left b).result := by
  rw [AddRecordLoop, AddRecordLoop,
    body_some file crc _ ptr left b (by show (0 : Int) ≤ 32768; decide) (le_refl _),
    body_some file crc _ ptr left b (le_refl _) (by show (0 : Int) ≤ 32768; decide)]
  have hw : (iterAt file crc { dest_ := d, block_offset_ := 32768, type_crc_ := tc }
      ptr left b).w
      = (iterAt file crc { dest_ := d, block_offset_ := 0, type_crc_ := tc } ptr left b).w :=
    rfl
  have hs : (iterAt file crc { dest_ := d, block_offset_ := 32768, type_crc_ := tc }
      ptr left b).s
      = (iterAt file crc { dest_ := d, block_offset_ := 0, type_crc_ := tc } ptr left b).s :=
    rfl
  have hp : (iterAt file crc { dest_ := d, block_offset_ := 32768, type_crc_ := tc }
      ptr left b).ptr
      = (iterAt file crc { dest_ := d, block_offset_ := 0, type_crc_ := tc } ptr left b).ptr :=
    rfl
  have hl : (iterAt file crc { dest_ := d, block_offset_ := 32768, type_crc_ := tc }
      ptr left b).left
      = (iterAt file crc { dest_ := d, block_offset_ := 0, type_crc_ := tc } ptr left b).left :=
    rfl
  simp only [hw, hs, hp, hl]
  split_ifs
  · cases AddRecordLoop file crc n
      (iterAt file crc { dest_ := d, block_offset_ := 0, type_crc_ := tc } ptr left b).w
      (iterAt file crc { dest_ := d, block_offset_ := 0, type_crc_ := tc } ptr left b).ptr
      (iterAt file crc { dest_ := d, block_offset_ := 0, type_crc_ := tc } ptr left b).left
      false <;> rfl
  · rfl

theorem addRecords_resume {σ : Type} (file : WritableFile σ) (crc : Crc32c) (d : σ)
    (tc : List Nat) (rs : List (List Nat)) :
    (AddRecords file crc { dest_ := d, block_offset_ := 32768, type_crc_ := tc } rs).map
        (fun r => (r.1.dest_, r.2)) =
    (AddRecords file crc { dest_ := d, block_offset_ := 0, type_crc_ := tc } rs).map
        (fun r => (r.1.dest_, r.2)) := by
  cases rs with
  | nil => rfl
  | cons r rs =>
    have h := loop_resume file crc d tc (r.length + 1) r r.length true
    rw [AddRecords, AddRecords]
    unfold AddRecord
    cases hA : AddRecordLoop file crc (r.length + 2)
        { dest_ := d, block_offset_ := 32768, type_crc_ := tc } r r.length true <;>
      cases hB : AddRecordLoop file crc (r.length + 2)
        { dest_ := d, block_offset_ := 0, type_crc_ := tc } r r.length true <;>
      rw [hA, hB] at h <;>
      simp only [Outcome.result, Option.some.injEq, Prod.mk.injEq, reduceCtorEq] at h ⊢
    obtain ⟨hw, hs⟩ := h
    rw [hw, hs]

/-- C5 (resume equivalence).  Let a fresh writer on the empty never-failing
destination process any records `rs1`, leaving `L` bytes.  A new writer
constructed on those bytes with `existingLength = L` then appends, for every
further sequence of records `rs2`, exactly the bytes the original writer
appends when it continues, and returns the same statuses; when `L` is a positive
multiple of 32768 the original writer's block offset is 32768 and the new
writer's is 0. -/
theorem resume_equivalence (crc : Crc32c) (rs1 rs2 : List (List Nat)) :
    ∃ w1 ss1, AddRecords memFile crc (Writer.new crc []) rs1 = some (w1, ss1) ∧
      (∃ wa wb ss appended,
        AddRecords memFile crc w1 rs2 = some (wa, ss) ∧
        AddRecords memFile crc (Writer.newAt crc w1.dest_ w1.dest_.length) rs2
          = some (wb, ss) ∧
        wa.dest_ = w1.dest_ ++ appended ∧ wb.dest_ = w1.dest_ ++ appended) ∧
      (0 < w1.dest_.length → w1.dest_.length % 32768 = 0 →
        w1.block_offset_ = 32768 ∧
        (Writer.newAt crc w1.dest_ w1.dest_.length).block_offset_ = 0) := by
  obtain ⟨w1, ss1, hrun1, hal1, _, h10, h11, htc1, hnil, hcons⟩ :=
    memFile_addRecords crc rs1 (Writer.new crc []) (le_refl _)
      (by show (0 : Int) ≤ 32768; decide) rfl
  obtain ⟨wa, ss, hruna, _, ⟨app, happ⟩, _⟩ := memFile_addRecords crc rs2 w1 h10 h11 hal1
  have hnew : (Writer.newAt crc w1.dest_ w1.dest_.length).block_offset_
      = ((w1.dest_.length % 18446744073709551616 % 32768 : Nat) : Int) := rfl
  refine ⟨w1, ss1, hrun1, ?_, ?_⟩
  · by_cases hlt : w1.block_offset_ < 32768
    · have heq : Writer.newAt crc w1.dest_ w1.dest_.length = w1 := by
        obtain ⟨d, o, tc⟩ := w1
        simp only [Writer.newAt, Writer.mk.injEq, true_and]
        simp only [Writer.new] at htc1
        simp only at hal1 h10 hlt
        refine ⟨?_, htc1.symm⟩
        omega
      exact ⟨wa, wa, ss, app, hruna, by rw [heq]; exact hruna, happ, happ⟩
    · have ho : w1.block_offset_ = 32768 := by omega
      have hw1 : w1 =
          { dest_ := w1.dest_, block_offset_ := 32768, type_crc_ := InitTypeCrc crc } := by
        obtain ⟨d, o, tc⟩ := w1
        simp only [Writer.mk.injEq, true_and]
        exact ⟨ho, htc1⟩
      have hwn : Writer.newAt crc w1.dest_ w1.dest_.length
          = { dest_ := w1.dest_, block_offset_ := 0, type_crc_ := InitTypeCrc crc } := by
        simp only [Writer.newAt, Writer.mk.injEq, true_and, and_true]
        omega
      have h := addRecords_resume memFile crc w1.dest_ (InitTypeCrc crc) rs2
      rw [← hw1, ← hwn, hruna] at h
      cases hb : AddRecords memFile crc (Writer.newAt crc w1.dest_ w1.dest_.length) rs2 with
      | none => rw [hb] at h; simp at h
      | some r =>
        rw [hb] at h
        simp only [Option.map_some', Option.some.injEq, Prod.mk.injEq] at h
        obtain ⟨wb, ss'⟩ := r
        simp only at h
        refine ⟨wa, wb, ss, app, hruna, ?_, happ, ?_⟩
        · rw [h.2]
        · rw [← h.1, happ]
  · intro hpos hmod
    have hne : rs1 ≠ [] := by
      intro h
      rw [hnil h] at hpos
      exact absurd hpos (Nat.lt_irrefl 0)
    have h7 := hcons hne
    rw [hnew]
    omega

/-! ## Failures of the destination -/

theorem status_ok_iff (s : Status) : s.ok = true ↔ s = Status.OK := by
  cases s <;> simp [Status.ok]

theorem status_not_ok (s : Status) : s.ok = false ↔ s ≠ Status.OK := by
  cases s <;> simp [Status.ok]

/-- The three ways WriteHeaderAndPayload ends on a recording destination. -/
theorem scripted_write_cases (env : List (Call × Status) → Call → Status) (d : Recorder)
    (buf payload : List Nat) :
    (((env d.calls (Call.Append buf)).ok = false →
      WriteHeaderAndPayload (scripted env) d buf payload =
        ({ contents := d.contents,
           calls := d.calls ++ [(Call.Append buf, env d.calls (Call.Append buf))] },
         env d.calls (Call.Append buf))) ∧
    ((env d.calls (Call.Append buf)).ok = true →
      (env (d.calls ++ [(Call.Append buf, env d.calls (Call.Append buf))])
        (Call.Append payload)).ok = false →
      WriteHeaderAndPayload (scripted env) d buf payload =
        ({ contents := d.contents ++ buf,
           calls := d.calls ++ [(Call.Append buf, env d.calls (Call.Append buf)),
             (Call.Append payload,
               env (d.calls ++ [(Call.Append buf, env d.calls (Call.Append buf))])
                 (Call.Append payload))] },
         env (d.calls ++ [(Call.Append buf, env d.calls (Call.Append buf))])
           (Call.Append payload))) ∧
    ((env d.calls (Call.Append buf)).ok = true →
      (env (d.calls ++ [(Call.Append buf, env d.calls (Call.Append buf))])
        (Call.Append payload)).ok = true →
      WriteHeaderAndPayload (scripted env) d buf payload =
        ({ contents := d.contents ++ buf ++ payload,
           calls := d.calls ++ [(Call.Append buf, env d.calls (Call.Append buf)),
             (Call.Append payload,
               env (d.calls ++ [(Call.Append buf, env d.calls (Call.Append buf))])
                 (Call.Append payload)),
             (Call.Flush,
               env (d.calls ++ [(Call.Append buf, env d.calls (Call.Append buf)),
                 (Call.Append payload,
                   env (d.calls ++ [(Call.Append buf, env d.calls (Call.Append buf))])
                     (Call.Append payload))]) Call.Flush)] },
         env (d.calls ++ [(Call.Append buf, env d.calls (Call.Append buf)),
           (Call.Append payload,
             env (d.calls ++ [(Call.Append buf, env d.calls (Call.Append buf))])
               (Call.Append payload))]) Call.Flush))) := by
  refine ⟨fun h1 => ?_, fun h1 h2 => ?_, fun h1 h2 => ?_⟩
  · unfold WriteHeaderAndPayload scripted
    simp [h1]
  · unfold WriteHeaderAndPayload scripted
    simp [h1, h2]
  · unfold WriteHeaderAndPayload scripted
    simp [h1, h2]

theorem scripted_write_grows (env : List (Call × Status) → Call → Status) (d : Recorder)
    (buf payload : List Nat) :
    ∃ tail, (WriteHeaderAndPayload (scripted env) d buf payload).1.contents
      = d.contents ++ tail := by
  obtain ⟨c1, c2, c3⟩ := scripted_write_cases env d buf payload
  rcases Bool.eq_false_or_eq_true ((env d.calls (Call.Append buf)).ok) with h1 | h1
  · rcases Bool.eq_false_or_eq_true ((env (d.calls ++
        [(Call.Append buf, env d.calls (Call.Append buf))]) (Call.Append payload)).ok)
        with h2 | h2
    · rw [c3 h1 h2]; exact ⟨buf ++ payload, by simp⟩
    · rw [c2 h1 h2]; exact ⟨buf, rfl⟩
  · rw [c1 h1]; exact ⟨[], by simp⟩

theorem scripted_fillTrailer (env : List (Call × Status) → Call → Status)
    (w : Writer Recorder) :
    (FillTrailer (scripted env) w).1.dest_.contents
      = w.dest_.contents ++ reached (FillTrailer (scripted env) w).2 := by
  unfold FillTrailer scripted reached
  simp only []
  split_ifs <;> simp_all

theorem formatHeader_take (crc : Crc32c) (tc : List Nat) (t : RecordType) (ptr : List Nat)
    (n : Nat) : FormatHeader crc tc t (ptr.take n) n = FormatHeader crc tc t ptr n := by
  unfold FormatHeader
  rw [List.take_take, Nat.min_self]

/-- What one iteration leaves in a recording destination. -/
theorem scripted_iterAt (env : List (Call × Status) → Call → Status) (crc : Crc32c)
    (w : Writer Recorder) (ptr : List Nat) (left : Nat) (b : Bool) :
    ((iterAt (scripted env) crc w ptr left b).s = Status.OK →
      (iterAt (scripted env) crc w ptr left b).w.dest_.contents = w.dest_.contents ++
        emittedBytes crc w.type_crc_ (iterAt (scripted env) crc w ptr left b).emission) ∧
    (∃ tail, (iterAt (scripted env) crc w ptr left b).w.dest_.contents
      = w.dest_.contents ++ tail) := by
  constructor
  · intro h
    have h' := scripted_write_ok env _ _ _ h
    show (WriteHeaderAndPayload (scripted env) (FillTrailer (scripted env) w).1.dest_ _ _).1.contents
      = _
    rw [h', scripted_fillTrailer]
    unfold emittedBytes
    simp only [iterAt, formatHeader_take, List.append_assoc]
  · obtain ⟨tail, ht⟩ := scripted_write_grows env (FillTrailer (scripted env) w).1.dest_
      (FormatHeader crc w.type_crc_ (SelectType b (left == fragLen w.block_offset_ left)) ptr
        (fragLen w.block_offset_ left)) (ptr.take (fragLen w.block_offset_ left))
    refine ⟨reached (FillTrailer (scripted env) w).2 ++ tail, ?_⟩
    show (WriteHeaderAndPayload (scripted env) (FillTrailer (scripted env) w).1.dest_ _ _).1.contents
      = _
    rw [ht, scripted_fillTrailer, List.append_assoc]

/-- The loop stops at the first fragment whose emission fails: every fragment
but the last returned OK, AddRecord returns the status of the last, and the
fragments before the last are in the destination in full. -/
theorem scripted_addRecord_stops (env : List (Call × Status) → Call → Status) (crc : Crc32c)
    (w : Writer Recorder) (S : List Nat)
    (h0 : 0 ≤ w.block_offset_) (h1 : w.block_offset_ ≤ 32768) :
    ∃ w' s es, AddRecord (scripted env) crc w S = Outcome.done w' s es ∧
      ∃ init last, es = init ++ [last] ∧ (∀ e ∈ init, e.status = Status.OK) ∧
        s = last.status ∧
        ∃ tail, w'.dest_.contents = w.dest_.contents ++
          (init.map (emittedBytes crc w.type_crc_)).flatten ++ tail :=
  AddRecord_rule (scripted env) crc
    (fun w _ _ _ w' s es =>
      ∃ init last, es = init ++ [last] ∧ (∀ e ∈ init, e.status = Status.OK) ∧
        s = last.status ∧
        ∃ tail, w'.dest_.contents = w.dest_.contents ++
          (init.map (emittedBytes crc w.type_crc_)).flatten ++ tail)
    (by
      intro w ptr left b _ _ _
      obtain ⟨tail, ht⟩ := (scripted_iterAt env crc w ptr left b).2
      exact ⟨[], _, rfl, fun e he => absurd he (List.not_mem_nil e), rfl, tail, by simpa using ht⟩)
    (by
      intro w ptr left b _ _ hok _ w' s' es ih
      obtain ⟨init, last, hes, hinit, hs, tail, ht⟩ := ih
      have hOK := (status_ok_iff _).mp hok
      have hc := (scripted_iterAt env crc w ptr left b).1 hOK
      refine ⟨(iterAt (scripted env) crc w ptr left b).emission :: init, last, ?_, ?_, hs,
        tail, ?_⟩
      · rw [hes]; rfl
      · intro e he
        rcases List.mem_cons.mp he with h | h
        · rw [h]; exact hOK
        · exact hinit e h
      · rw [ht, hc]
        have htc : (iterAt (scripted env) crc w ptr left b).w.type_crc_ = w.type_crc_ := rfl
        rw [htc]
        simp only [List.map_cons, List.flatten_cons, List.append_assoc])
    w S h0 h1

theorem failAt_write_ok (k code : Nat) (d : Recorder) (buf payload : List Nat)
    (h : d.calls.length + 3 ≤ k) :
    WriteHeaderAndPayload (scripted (failAt k code)) d buf payload =
      ({ contents := d.contents ++ buf ++ payload,
         calls := d.calls ++ [(Call.Append buf, Status.OK), (Call.Append payload, Status.OK),
           (Call.Flush, Status.OK)] }, Status.OK) := by
  have e1 : ¬ d.calls.length = k := by omega
  have e2 : ¬ d.calls.length + 1 = k := by omega
  have e3 : ¬ d.calls.length + 1 + 1 = k := by omega
  unfold WriteHeaderAndPayload scripted failAt
  simp [e1, e2, e3, Status.ok]

theorem failAt_write_fail (k code : Nat) (d : Recorder) (buf payload : List Nat)
    (h : d.calls.length = k) :
    WriteHeaderAndPayload (scripted (failAt k code)) d buf payload =
      ({ contents := d.contents,
         calls := d.calls ++ [(Call.Append buf, Status.Failure code)] },
       Status.Failure code) := by
  unfold WriteHeaderAndPayload scripted failAt
  simp [h, Status.ok]

theorem failAt_fillTrailer (k code : Nat) (w : Writer Recorder)
    (h0 : 0 ≤ w.block_offset_) (h1 : w.block_offset_ ≤ 32768)
    (h : w.dest_.calls.length < k) :
    (FillTrailer (scripted (failAt k code)) w).1.dest_.contents
      = w.dest_.contents ++ padding w.block_offset_ ∧
    (FillTrailer (scripted (failAt k code)) w).1.dest_.calls.length
      = w.dest_.calls.length + (if padding w.block_offset_ = [] then 0 else 1) := by
  have e1 : ¬ w.dest_.calls.length = k := by omega
  unfold FillTrailer padding scripted failAt kBlockSize kHeaderSize
  by_cases hl : (32768 : Int) - w.block_offset_ < 7
  · by_cases hp : (32768 : Int) - w.block_offset_ > 0
    · have hp' : (0 : Int) < 32768 - w.block_offset_ := hp
      have hne : List.replicate (32768 - w.block_offset_).toNat 0 ≠ [] := by
        intro h'
        have := congrArg List.length h'
        rw [List.length_replicate] at this
        simp only [List.length_nil] at this
        omega
      simp only [hl, hp, hp', e1, if_true, if_false, and_self, Status.ok, hne,
        List.length_append, List.length_singleton]
      rw [take_zeros _ (by omega)]
      exact ⟨rfl, trivial⟩
    · have hp' : ¬ (0 : Int) < 32768 - w.block_offset_ := hp
      simp [hl, hp, hp']
  · simp [hl]

theorem fillTrailer_at_end {σ : Type} (file : WritableFile σ) (w : Writer σ)
    (h : w.block_offset_ = 32768) : (FillTrailer file w).1.dest_ = w.dest_ := by
  unfold FillTrailer kBlockSize kHeaderSize
  simp [h]

/-- A failure of the first append of the second fragment: the script lets the
trailer append, if any, and the three calls of the first fragment succeed and
fails the call after them. -/
theorem failAt_second_fragment (crc : Crc32c) (w : Writer Recorder) (S : List Nat)
    (code : Nat) (h0 : 0 ≤ w.block_offset_) (h1 : w.block_offset_ ≤ 32768)
    (hlong : availAt w.block_offset_ < S.length) :
    ∃ w' e1 e2,
      AddRecord (scripted (failAt (w.dest_.calls.length +
          (if padding w.block_offset_ = [] then 0 else 1) + 3) code)) crc w S
        = Outcome.done w' (Status.Failure code) [e1, e2] ∧
      e1.status = Status.OK ∧ e2.status = Status.Failure code ∧
      w'.dest_.contents = w.dest_.contents ++ padding w.block_offset_ ++
        (FormatHeader crc w.type_crc_ e1.type e1.payload e1.length ++ e1.payload) ∧
      w'.dest_.calls.length = w.dest_.calls.length +
          (if padding w.block_offset_ = [] then 0 else 1) + 4 ∧
      w'.dest_.calls.getLast? = some
        (Call.Append (FormatHeader crc w.type_crc_ e2.type e2.payload e2.length),
          Status.Failure code) := by
  generalize hk : w.dest_.calls.length + (if padding w.block_offset_ = [] then 0 else 1) + 3
    = k
  obtain ⟨hfc, hfl⟩ := failAt_fillTrailer k code w h0 h1 (by omega)
  have hfrag : fragLen w.block_offset_ S.length = availAt w.block_offset_ := by
    unfold fragLen; split_ifs <;> omega
  -- the first iteration
  set it1 := iterAt (scripted (failAt k code)) crc w S S.length true with hit1
  have hw1 := failAt_write_ok k code (FillTrailer (scripted (failAt k code)) w).1.dest_
    (FormatHeader crc w.type_crc_ it1.emission.type S it1.emission.length)
    it1.emission.payload (by omega)
  have hs1 : it1.s = Status.OK := congrArg Prod.snd hw1
  have hd1 : it1.w.dest_ = _ := congrArg Prod.fst hw1
  have hl1 : 0 < it1.left := by
    show 0 < S.length - fragLen w.block_offset_ S.length
    omega
  obtain ⟨_, _, ho1⟩ := iterAt_left_pos _ crc w S S.length true h0 h1 hl1
  -- the second iteration
  set it2 := iterAt (scripted (failAt k code)) crc it1.w it1.ptr it1.left false with hit2
  have hd2 : (FillTrailer (scripted (failAt k code)) it1.w).1.dest_ = _ :=
    (fillTrailer_at_end _ _ ho1).trans hd1
  have hw2 := failAt_write_fail k code (FillTrailer (scripted (failAt k code)) it1.w).1.dest_
    (FormatHeader crc w.type_crc_ it2.emission.type it1.ptr it2.emission.length)
    it2.emission.payload
    (by rw [hd2]; simp only [List.length_append, List.length_cons, List.length_nil]; omega)
  have hs2 : it2.s = Status.Failure code := congrArg Prod.snd hw2
  have hd3 : it2.w.dest_ = _ := congrArg Prod.fst hw2
  refine ⟨it2.w, it1.emission, it2.emission, ?_, hs1, hs2, ?_, ?_, ?_⟩
  · unfold AddRecord
    rw [AddRecordLoop, body_some _ crc w S S.length true h0 h1]
    simp only [← hit1, hs1, Status.ok, hl1, decide_True, Bool.and_self, if_true]
    rw [AddRecordLoop, body_some _ crc _ _ _ false (by rw [ho1]; decide) (by rw [ho1])]
    simp only [← hit2, hs2, Status.ok, Bool.false_and, Bool.false_eq_true, if_false]
  · rw [hd3, hd2]
    simp only [hfc, hit1, iterAt, formatHeader_take, List.append_assoc]
  · rw [hd3, hd2]
    simp only [List.length_append, List.length_cons, List.length_nil, hfl]
  · rw [hd3]
    simp only [List.getLast?_append, List.getLast?_singleton, Option.or_some, hit2, iterAt,
      formatHeader_take]

/-- C6 (abort on the first failed fragment), on a recording destination whose
replies `env` chooses freely.
(1) Inside a fragment: EmitPhysicalRecord appends the header and stops there
when that fails; else appends the payload and stops there when that fails; else
flushes; the status it returns is the reply to the last call it made.
(2) From every offset in `[0, 32768]`, AddRecord returns with emissions
`init ++ [last]`: every fragment of `init` returned OK, so a fragment that fails
is the last one emitted; AddRecord returns the status of `last`; and the bytes
of the fragments of `init` (with their trailers) are in the destination in full.
(3) When the record needs two fragments or more and the script fails exactly
the first append of the second fragment, AddRecord returns that failure, exactly
two fragments were attempted, the failed append is the last call made, and the
destination holds exactly the trailer padding and the first fragment. -/
theorem AddRecord_aborts_on_first_failed_fragment
    (env : List (Call × Status) → Call → Status) (crc : Crc32c) (w : Writer Recorder)
    (S : List Nat) (code : Nat) (h0 : 0 ≤ w.block_offset_) (h1 : w.block_offset_ ≤ 32768) :
    (∀ (v v' : Writer Recorder) (t : RecordType) (ptr : List Nat) (n : Nat) (s : Status),
      EmitPhysicalRecord (scripted env) crc v t ptr n = some (v', s) →
      ∃ s1 s2 s3,
        (s1.ok = false ∧ s = s1 ∧ v'.dest_.calls = v.dest_.calls ++
          [(Call.Append (FormatHeader crc v.type_crc_ t ptr n), s1)]) ∨
        (s1.ok = true ∧ s2.ok = false ∧ s = s2 ∧ v'.dest_.calls = v.dest_.calls ++
          [(Call.Append (FormatHeader crc v.type_crc_ t ptr n), s1),
           (Call.Append (ptr.take n), s2)]) ∨
        (s1.ok = true ∧ s2.ok = true ∧ s = s3 ∧ v'.dest_.calls = v.dest_.calls ++
          [(Call.Append (FormatHeader crc v.type_crc_ t ptr n), s1),
           (Call.Append (ptr.take n), s2), (Call.Flush, s3)])) ∧
    (∃ w' s es, AddRecord (scripted env) crc w S = Outcome.done w' s es ∧
      ∃ init last, es = init ++ [last] ∧ (∀ e ∈ init, e.status = Status.OK) ∧
        s = last.status ∧
        ∃ tail, w'.dest_.contents = w.dest_.contents ++
          (init.map (emittedBytes crc w.type_crc_)).flatten ++ tail) ∧
    (availAt w.block_offset_ < S.length →
      ∃ w' e1 e2,
        AddRecord (scripted (failAt (w.dest_.calls.length +
            (if padding w.block_offset_ = [] then 0 else 1) + 3) code)) crc w S
          = Outcome.done w' (Status.Failure code) [e1, e2] ∧
        e1.status = Status.OK ∧ e2.status = Status.Failure code ∧
        w'.dest_.contents = w.dest_.contents ++ padding w.block_offset_ ++
          (FormatHeader crc w.type_crc_ e1.type e1.payload e1.length ++ e1.payload) ∧
        w'.dest_.calls.length = w.dest_.calls.length +
            (if padding w.block_offset_ = [] then 0 else 1) + 4 ∧
        w'.dest_.calls.getLast? = some
          (Call.Append (FormatHeader crc w.type_crc_ e2.type e2.payload e2.length),
            Status.Failure code)) := by
  refine ⟨?_, scripted_addRecord_stops env crc w S h0 h1,
    failAt_second_fragment crc w S code h0 h1⟩
  intro v v' t ptr n s hemit
  obtain ⟨hd, hs, _, _⟩ := emit_result _ _ _ _ _ _ _ _ hemit
  obtain ⟨c1, c2, c3⟩ := scripted_write_cases env v.dest_
    (FormatHeader crc v.type_crc_ t ptr n) (ptr.take n)
  refine ⟨env v.dest_.calls (Call.Append (FormatHeader crc v.type_crc_ t ptr n)),
    env (v.dest_.calls ++ [(Call.Append (FormatHeader crc v.type_crc_ t ptr n),
      env v.dest_.calls (Call.Append (FormatHeader crc v.type_crc_ t ptr n)))])
      (Call.Append (ptr.take n)),
    env (v.dest_.calls ++ [(Call.Append (FormatHeader crc v.type_crc_ t ptr n),
      env v.dest_.calls (Call.Append (FormatHeader crc v.type_crc_ t ptr n))),
      (Call.Append (ptr.take n),
        env (v.dest_.calls ++ [(Call.Append (FormatHeader crc v.type_crc_ t ptr n),
          env v.dest_.calls (Call.Append (FormatHeader crc v.type_crc_ t ptr n)))])
          (Call.Append (ptr.take n)))]) Call.Flush, ?_⟩
  rcases Bool.eq_false_or_eq_true
    ((env v.dest_.calls (Call.Append (FormatHeader crc v.type_crc_ t ptr n))).ok) with h1 | h1
  · rcases Bool.eq_false_or_eq_true
      ((env (v.dest_.calls ++ [(Call.Append (FormatHeader crc v.type_crc_ t ptr n),
        env v.dest_.calls (Call.Append (FormatHeader crc v.type_crc_ t ptr n)))])
        (Call.Append (ptr.take n))).ok) with h2 | h2
    · right; right
      rw [c3 h1 h2] at hd hs
      exact ⟨h1, h2, hs, by rw [hd]⟩
    · right; left
      rw [c2 h1 h2] at hd hs
      exact ⟨h1, h2, hs, by rw [hd]⟩
  · left
    rw [c1 h1] at hd hs
    exact ⟨h1, hs, by rw [hd]⟩

/-- Witness of C6: a two-byte record written one payload byte before the end of
a block, on a destination that fails its fourth call. -/
theorem AddRecord_aborts_on_first_failed_fragment_witness :
    ∃ w' e1 e2,
      AddRecord (scripted (failAt 3 5)) crc32c.ref
          (Writer.newAt crc32c.ref ⟨[], []⟩ 32760) [97, 98]
        = Outcome.done w' (Status.Failure 5) [e1, e2] ∧
      e1.status = Status.OK ∧ e2.status = Status.Failure 5 ∧
      w'.dest_.contents = [] ++ [] ++
        (FormatHeader crc32c.ref (InitTypeCrc crc32c.ref) e1.type e1.payload e1.length
          ++ e1.payload) ∧
      w'.dest_.calls.length = 0 + 0 + 4 ∧
      w'.dest_.calls.getLast? = some
        (Call.Append (FormatHeader crc32c.ref (InitTypeCrc crc32c.ref) e2.type e2.payload
          e2.length), Status.Failure 5) :=
  (AddRecord_aborts_on_first_failed_fragment (failAt 3 5) crc32c.ref
    (Writer.newAt crc32c.ref ⟨[], []⟩ 32760) [97, 98] 5 (by decide) (by decide)).2.2
    (by decide)

/-- C7, evaluated where it fails.  A writer resumed 3 bytes before a block
boundary appends 3 trailer bytes; the destination fails that append.  AddRecord
does not look at the reply: it goes on to make three more calls on the
destination and returns OK. -/
theorem AddRecord_ignores_trailer_failure :
    AddRecord (scripted (failAt 0 5)) crc32c.ref
        (Writer.newAt crc32c.ref ⟨[], []⟩ 32765) [97] =
      Outcome.done
        { dest_ := ⟨[181, 205, 11, 162, 1, 0, 1, 97],
            [(Call.Append [0, 0, 0], Status.Failure 5),
             (Call.Append [181, 205, 11, 162, 1, 0, 1], Status.OK),
             (Call.Append [97], Status.OK), (Call.Flush, Status.OK)]⟩,
          block_offset_ := 8, type_crc_ := InitTypeCrc crc32c.ref }
        Status.OK
        [{ top_offset := 32765, trailer := some ([0, 0, 0], Status.Failure 5), offset := 0,
           type := RecordType.kFullType, length := 1, payload := [97],
           status := Status.OK }] := by
  rfl

/-! ## The block offset and the assertions -/

/-- The assertions of AddRecord and EmitPhysicalRecord, read off the record of
one iteration. -/
theorem iterAt_asserts {σ : Type} (file : WritableFile σ) (crc : Crc32c) (w : Writer σ)
    (ptr : List Nat) (left : Nat) (b : Bool)
    (h0 : 0 ≤ w.block_offset_) (h1 : w.block_offset_ ≤ 32768) :
    kBlockSize - (iterAt file crc w ptr left b).emission.top_offset ≥ 0 ∧
    kBlockSize - (iterAt file crc w ptr left b).emission.offset - kHeaderSize ≥ 0 ∧
    (iterAt file crc w ptr left b).emission.length ≤ 0xffff ∧
    (iterAt file crc w ptr left b).emission.offset + kHeaderSize +
      (iterAt file crc w ptr left b).emission.length ≤ kBlockSize ∧
    7 ≤ (iterAt file crc w ptr left b).w.block_offset_ ∧
    (iterAt file crc w ptr left b).w.block_offset_ ≤ 32768 := by
  have hs := startOffset_range w.block_offset_ h0 h1
  have ha := availAt_le w.block_offset_ h0 h1
  have hf := fragLen_le w.block_offset_ left
  have e1 : (iterAt file crc w ptr left b).emission.top_offset = w.block_offset_ := rfl
  have e2 : (iterAt file crc w ptr left b).emission.offset = startOffset w.block_offset_ := rfl
  have e3 : (iterAt file crc w ptr left b).emission.length = fragLen w.block_offset_ left := rfl
  have e4 : (iterAt file crc w ptr left b).w.block_offset_
      = startOffset w.block_offset_ + 7 + fragLen w.block_offset_ left := rfl
  rw [e1, e2, e3, e4]
  unfold kBlockSize kHeaderSize
  omega

/-- From a block offset in `[0, 32768]` AddRecord returns, whatever the
destination replies: no assertion fails, the block offset ends in `[7, 32768]`
and the seed table is unchanged. -/
theorem addRecord_total {σ : Type} (file : WritableFile σ) (crc : Crc32c) (w : Writer σ)
    (S : List Nat) (h0 : 0 ≤ w.block_offset_) (h1 : w.block_offset_ ≤ 32768) :
    ∃ w' s es, AddRecord file crc w S = Outcome.done w' s es ∧
      7 ≤ w'.block_offset_ ∧ w'.block_offset_ ≤ 32768 ∧ w'.type_crc_ = w.type_crc_ ∧
      ∀ e ∈ es, kBlockSize - e.top_offset ≥ 0 ∧ kBlockSize - e.offset - kHeaderSize ≥ 0 ∧
        e.length ≤ 0xffff ∧ e.offset + kHeaderSize + e.length ≤ kBlockSize :=
  AddRecord_rule file crc
    (fun w _ _ _ w' _ es =>
      7 ≤ w'.block_offset_ ∧ w'.block_offset_ ≤ 32768 ∧ w'.type_crc_ = w.type_crc_ ∧
      ∀ e ∈ es, kBlockSize - e.top_offset ≥ 0 ∧ kBlockSize - e.offset - kHeaderSize ≥ 0 ∧
        e.length ≤ 0xffff ∧ e.offset + kHeaderSize + e.length ≤ kBlockSize)
    (by
      intro w ptr left b h0 h1 _
      obtain ⟨a1, a2, a3, a4, a5, a6⟩ := iterAt_asserts file crc w ptr left b h0 h1
      refine ⟨a5, a6, rfl, ?_⟩
      intro e he
      rw [List.mem_singleton.mp he]
      exact ⟨a1, a2, a3, a4⟩)
    (by
      intro w ptr left b h0 h1 _ _ w' s' es ih
      obtain ⟨a1, a2, a3, a4, _, _⟩ := iterAt_asserts file crc w ptr left b h0 h1
      obtain ⟨i1, i2, i3, i4⟩ := ih
      refine ⟨i1, i2, i3, ?_⟩
      intro e he
      rcases List.mem_cons.mp he with h | h
      · rw [h]; exact ⟨a1, a2, a3, a4⟩
      · exact i4 e h)
    w S h0 h1

theorem newAt_range {σ : Type} (crc : Crc32c) (dest : σ) (dest_length : Nat) :
    0 ≤ (Writer.newAt crc dest dest_length).block_offset_ ∧
    (Writer.newAt crc dest dest_length).block_offset_ < 32768 := by
  show (0 : Int) ≤ ((dest_length % 18446744073709551616 % 32768 : Nat) : Int) ∧
    ((dest_length % 18446744073709551616 % 32768 : Nat) : Int) < 32768
  omega

/-- In every reachable writer state the block offset is in `[0, 32768]` and the
seed table is the one InitTypeCrc computed. -/
theorem reachable_range {σ : Type} (file : WritableFile σ) (crc : Crc32c) (w : Writer σ)
    (hr : Reachable file crc w) :
    0 ≤ w.block_offset_ ∧ w.block_offset_ ≤ 32768 ∧ w.type_crc_ = InitTypeCrc crc := by
  induction hr with
  | new dest => exact ⟨le_refl _, by show (0 : Int) ≤ 32768; decide, rfl⟩
  | newAt dest n =>
    have h := newAt_range crc dest n
    exact ⟨h.1, by omega, rfl⟩
  | addRecord w w' slice s es _ hrun ih =>
    obtain ⟨w'', s'', es'', hrun', h7, h8, htc, _⟩ :=
      addRecord_total file crc w slice ih.1 ih.2.1
    rw [hrun] at hrun'
    simp only [Outcome.done.injEq] at hrun'
    obtain ⟨hw, _, _⟩ := hrun'
    subst hw
    exact ⟨by omega, h8, by rw [htc, ih.2.2]⟩

/-- C8, refuted as stated: a writer constructed at existing length 32760 that
adds a one-byte record ends with block offset 32768, which is not below the
block capacity. -/
theorem block_offset_invariant_counterexample :
    ∃ w' es, AddRecord memFile crc32c.ref (Writer.newAt crc32c.ref [] 32760) [97]
        = Outcome.done w' Status.OK es ∧
      Reachable memFile crc32c.ref w' ∧
      w'.block_offset_ = 32768 ∧ ¬ (w'.block_offset_ < kBlockSize) :=
  ⟨{ dest_ := [181, 205, 11, 162, 1, 0, 1, 97], block_offset_ := 32768,
     type_crc_ := InitTypeCrc crc32c.ref },
   [{ top_offset := 32760, trailer := none, offset := 32760, type := RecordType.kFullType,
      length := 1, payload := [97], status := Status.OK }],
   rfl,
   Reachable.addRecord (Writer.newAt crc32c.ref [] 32760) _ [97] Status.OK _
     (Reachable.newAt [] 32760) rfl,
   rfl, by decide⟩

/-- C8, amended (invariant I1).  Whatever the destination replies: each
constructor leaves the block offset in `[0, 32768)`; in every reachable writer
state the block offset is in the closed range `[0, 32768]`; and from such a
state AddRecord returns for every record, leaving the block offset in
`[0, 32768]` again. -/
theorem block_offset_invariant {σ : Type} (file : WritableFile σ) (crc : Crc32c)
    (w : Writer σ) (hr : Reachable file crc w) :
    (∀ dest : σ, (Writer.new crc dest).block_offset_ = 0) ∧
    (∀ (dest : σ) (n : Nat), 0 ≤ (Writer.newAt crc dest n).block_offset_ ∧
      (Writer.newAt crc dest n).block_offset_ < kBlockSize) ∧
    0 ≤ w.block_offset_ ∧ w.block_offset_ ≤ kBlockSize ∧
    ∀ S, ∃ w' s es, AddRecord file crc w S = Outcome.done w' s es ∧
      0 ≤ w'.block_offset_ ∧ w'.block_offset_ ≤ kBlockSize := by
  obtain ⟨h0, h1, _⟩ := reachable_range file crc w hr
  refine ⟨fun _ => rfl, fun dest n => newAt_range crc dest n, h0, h1, ?_⟩
  intro S
  obtain ⟨w', s, es, hrun, h7, h8, _⟩ := addRecord_total file crc w S h0 h1
  exact ⟨w', s, es, hrun, by omega, h8⟩

/-- Witness of C8 amended: the state reached by adding a one-byte record to a
writer constructed at existing length 32760. -/
theorem block_offset_invariant_witness :
    (∀ dest : List Nat, (Writer.new crc32c.ref dest).block_offset_ = 0) ∧
    (∀ (dest : List Nat) (n : Nat), 0 ≤ (Writer.newAt crc32c.ref dest n).block_offset_ ∧
      (Writer.newAt crc32c.ref dest n).block_offset_ < kBlockSize) ∧
    (0 : Int) ≤ 32768 ∧ (32768 : Int) ≤ kBlockSize ∧
    ∀ S, ∃ w' s es, AddRecord memFile crc32c.ref
        { dest_ := [181, 205, 11, 162, 1, 0, 1, 97], block_offset_ := 32768,
          type_crc_ := InitTypeCrc crc32c.ref } S = Outcome.done w' s es ∧
      0 ≤ w'.block_offset_ ∧ w'.block_offset_ ≤ kBlockSize :=
  block_offset_invariant memFile crc32c.ref
    { dest_ := [181, 205, 11, 162, 1, 0, 1, 97], block_offset_ := 32768,
      type_crc_ := InitTypeCrc crc32c.ref }
    (Reachable.addRecord (Writer.newAt crc32c.ref [] 32760) _ [97] Status.OK
      [{ top_offset := 32760, trailer := none, offset := 32760, type := RecordType.kFullType,
         length := 1, payload := [97], status := Status.OK }]
      (Reachable.newAt [] 32760) rfl)

/-- C9 (assertion validity, I3).  In every writer state reachable from either
constructor through AddRecord calls, whatever the destination replies, AddRecord
returns for every record (no assertion of AddRecord or EmitPhysicalRecord
fails) and leaves a reachable state; in each iteration `32768 - offset ≥ 0` at
the top, `32768 - offset - 7 ≥ 0` after the block-boundary handling, and the
emitted fragment has payload length `≤ 65535` and
`offset + 7 + length ≤ 32768`. -/
theorem assertions_hold {σ : Type} (file : WritableFile σ) (crc : Crc32c)
    (w : Writer σ) (hr : Reachable file crc w) (S : List Nat) :
    AddRecord file crc w S ≠ Outcome.assertFailed ∧
    ∃ w' s es, AddRecord file crc w S = Outcome.done w' s es ∧ Reachable file crc w' ∧
      ∀ e ∈ es, kBlockSize - e.top_offset ≥ 0 ∧ kBlockSize - e.offset - kHeaderSize ≥ 0 ∧
        e.length ≤ 0xffff ∧ e.offset + kHeaderSize + e.length ≤ kBlockSize := by
  obtain ⟨h0, h1, _⟩ := reachable_range file crc w hr
  obtain ⟨w', s, es, hrun, _, _, _, hall⟩ := addRecord_total file crc w S h0 h1
  refine ⟨?_, w', s, es, hrun, Reachable.addRecord w w' S s es hr hrun, hall⟩
  rw [hrun]
  exact fun h => Outcome.noConfusion h

/-- Witness of C9: a two-byte record added by a writer constructed at existing
length 32761, on a destination that fails its first call. -/
theorem assertions_hold_witness :
    AddRecord (scripted (failAt 0 5)) crc32c.ref
        (Writer.newAt crc32c.ref ⟨[], []⟩ 32761) [97, 98] ≠ Outcome.assertFailed ∧
    ∃ w' s es, AddRecord (scripted (failAt 0 5)) crc32c.ref
        (Writer.newAt crc32c.ref ⟨[], []⟩ 32761) [97, 98] = Outcome.done w' s es ∧
      Reachable (scripted (failAt 0 5)) crc32c.ref w' ∧
      ∀ e ∈ es, kBlockSize - e.top_offset ≥ 0 ∧ kBlockSize - e.offset - kHeaderSize ≥ 0 ∧
        e.length ≤ 0xffff ∧ e.offset + kHeaderSize + e.length ≤ kBlockSize :=
  assertions_hold (scripted (failAt 0 5)) crc32c.ref
    (Writer.newAt crc32c.ref ⟨[], []⟩ 32761) (Reachable.newAt ⟨[], []⟩ 32761) [97, 98]

/-! ## The empty record -/

theorem fragLen_zero (o : Int) : fragLen o 0 = 0 := by
  unfold fragLen
  split_ifs <;> omega

/-- C10 (empty record).  From every writer state with block offset in
`[0, 32768]` and the seed table of InitTypeCrc, whatever the destination
replies, AddRecord of the empty byte sequence emits exactly one fragment: its
type is Full, its length is 0, it has no payload, and its header is the four
bytes of `Mask(Value([1]))` — the masked checksum of the single Full type
byte — followed by the length bytes `0, 0` and the type byte `1`; AddRecord
returns the status of that emission, and when it is OK the destination holds
the trailer bytes that reached it and these seven bytes more. -/
theorem AddRecord_empty (env : List (Call × Status) → Call → Status) (crc : Crc32c)
    (hc : crc.Contract) (w : Writer Recorder) (htc : w.type_crc_ = InitTypeCrc crc)
    (h0 : 0 ≤ w.block_offset_) (h1 : w.block_offset_ ≤ 32768) :
    ∃ w' s e, AddRecord (scripted env) crc w [] = Outcome.done w' s [e] ∧
      e.type = RecordType.kFullType ∧ e.length = 0 ∧ e.payload = [] ∧ e.status = s ∧
      FormatHeader crc w.type_crc_ e.type e.payload e.length =
        EncodeFixed32 (crc32c.Mask (crc.Value [1])) ++ [0, 0, 1] ∧
      (s = Status.OK → w'.dest_.contents = w.dest_.contents ++ reached e.trailer ++
        (EncodeFixed32 (crc32c.Mask (crc.Value [1])) ++ [0, 0, 1])) := by
  have hty : (iterAt (scripted env) crc w [] 0 true).emission.type
      = RecordType.kFullType := by
    show SelectType true (0 == fragLen w.block_offset_ 0) = _
    rw [fragLen_zero]; rfl
  have hlen : (iterAt (scripted env) crc w [] 0 true).emission.length = 0 :=
    fragLen_zero _
  have hpay : (iterAt (scripted env) crc w [] 0 true).emission.payload = [] :=
    List.take_nil
  have hleft : (iterAt (scripted env) crc w [] 0 true).left = 0 := Nat.zero_sub _
  have hhdr : FormatHeader crc w.type_crc_
      (iterAt (scripted env) crc w [] 0 true).emission.type
      (iterAt (scripted env) crc w [] 0 true).emission.payload
      (iterAt (scripted env) crc w [] 0 true).emission.length
      = EncodeFixed32 (crc32c.Mask (crc.Value [1])) ++ [0, 0, 1] := by
    rw [hty, hlen, hpay, htc]
    exact formatHeader_eq crc hc RecordType.kFullType [] (by decide)
  refine ⟨(iterAt (scripted env) crc w [] 0 true).w, (iterAt (scripted env) crc w [] 0 true).s,
    (iterAt (scripted env) crc w [] 0 true).emission, ?_, hty, hlen, hpay, rfl, hhdr, ?_⟩
  · unfold AddRecord
    rw [AddRecordLoop, body_some _ crc w [] _ true h0 h1]
    simp only [List.length_nil, hleft, gt_iff_lt, Nat.lt_irrefl, decide_False, Bool.and_false,
      Bool.false_eq_true, if_false]
  · intro hs
    have hcont := (scripted_iterAt env crc w [] 0 true).1 hs
    rw [hcont]
    unfold emittedBytes
    rw [hhdr, hpay, List.append_nil, List.append_assoc]

/-- Witness of C10: the empty record added by a writer constructed 3 bytes
before a block boundary. -/
theorem AddRecord_empty_witness :
    ∃ w' s e, AddRecord (scripted (failAt 7 5)) crc32c.ref
        (Writer.newAt crc32c.ref ⟨[], []⟩ 32765) [] = Outcome.done w' s [e] ∧
      e.type = RecordType.kFullType ∧ e.length = 0 ∧ e.payload = [] ∧ e.status = s ∧
      FormatHeader crc32c.ref (InitTypeCrc crc32c.ref) e.type e.payload e.length =
        EncodeFixed32 (crc32c.Mask (crc32c.ref.Value [1])) ++ [0, 0, 1] ∧
      (s = Status.OK → w'.dest_.contents = [] ++ reached e.trailer ++
        (EncodeFixed32 (crc32c.Mask (crc32c.ref.Value [1])) ++ [0, 0, 1])) :=
  AddRecord_empty (failAt 7 5) crc32c.ref ref_contract
    (Writer.newAt crc32c.ref ⟨[], []⟩ 32765) rfl (by decide) (by decide)

/-! ## Construction -/

/-- The first emission of a call of AddRecord is the one of the iteration that
starts in the state the call was made in. -/
theorem addRecord_head {σ : Type} (file : WritableFile σ) (crc : Crc32c) (w : Writer σ)
    (S : List Nat) (h0 : 0 ≤ w.block_offset_) (h1 : w.block_offset_ ≤ 32768) :
    ∃ w' s rest, AddRecord file crc w S =
      Outcome.done w' s ((iterAt file crc w S S.length true).emission :: rest) := by
  obtain ⟨w', s, es, hrun, rest, hes⟩ := AddRecord_rule file crc
    (fun w ptr left b _ _ es => ∃ rest, es = (iterAt file crc w ptr left b).emission :: rest)
    (fun _ _ _ _ _ _ _ => ⟨[], rfl⟩)
    (fun _ _ _ _ _ _ _ _ _ _ es _ => ⟨es, rfl⟩)
    w S h0 h1
  exact ⟨w', s, rest, by rw [hrun, hes]⟩

/-- C11 (construction).  A writer constructed with existing length `N` starts at
block offset `N mod 32768`; the one-argument constructor builds the writer of
existing length 0, at offset 0; existing length 32770 gives offset 2.  When
`N mod 32768 ≤ 32761`, the first AddRecord, for every record and whatever the
destination replies, appends no trailer and emits its first fragment at block
offset `N mod 32768`. -/
theorem constructor_offsets {σ : Type} (file : WritableFile σ) (crc : Crc32c) (dest : σ)
    (N : Nat) (S : List Nat) (hN : N % 32768 ≤ 32761) :
    (Writer.newAt crc dest N).block_offset_ = ((N % 32768 : Nat) : Int) ∧
    Writer.new crc dest = Writer.newAt crc dest 0 ∧
    (Writer.new crc dest).block_offset_ = 0 ∧
    (Writer.newAt crc dest 32770).block_offset_ = 2 ∧
    ∃ w' s e rest, AddRecord file crc (Writer.newAt crc dest N) S
        = Outcome.done w' s (e :: rest) ∧
      e.top_offset = ((N % 32768 : Nat) : Int) ∧ e.trailer = none ∧
      e.offset = ((N % 32768 : Nat) : Int) := by
  have hoff : (Writer.newAt crc dest N).block_offset_ = ((N % 32768 : Nat) : Int) := by
    show ((N % 18446744073709551616 % 32768 : Nat) : Int) = ((N % 32768 : Nat) : Int)
    omega
  have hr := newAt_range crc dest N
  refine ⟨hoff, rfl, rfl, rfl, ?_⟩
  obtain ⟨w', s, rest, hrun⟩ := addRecord_head file crc (Writer.newAt crc dest N) S
    hr.1 (by omega)
  obtain ⟨_, _, hroom, _, _⟩ := iterAt_blockBoundary file crc (Writer.newAt crc dest N) S
    S.length true hr.1 (by omega)
  have htop : (iterAt file crc (Writer.newAt crc dest N) S S.length true).emission.top_offset
      = (Writer.newAt crc dest N).block_offset_ := rfl
  rw [htop, hoff] at hroom
  obtain ⟨ht, ho⟩ := hroom (by unfold kHeaderSize kBlockSize; omega)
  exact ⟨w', s, _, rest, hrun, by rw [htop, hoff], ht, ho⟩

/-- Witness of C11: a writer constructed with existing length 32770. -/
theorem constructor_offsets_witness :
    (Writer.newAt crc32c.ref ([] : List Nat) 32770).block_offset_
      = ((32770 % 32768 : Nat) : Int) ∧
    Writer.new crc32c.ref ([] : List Nat) = Writer.newAt crc32c.ref [] 0 ∧
    (Writer.new crc32c.ref ([] : List Nat)).block_offset_ = 0 ∧
    (Writer.newAt crc32c.ref ([] : List Nat) 32770).block_offset_ = 2 ∧
    ∃ w' s e rest, AddRecord memFile crc32c.ref (Writer.newAt crc32c.ref [] 32770) [97]
        = Outcome.done w' s (e :: rest) ∧
      e.top_offset = ((32770 % 32768 : Nat) : Int) ∧ e.trailer = none ∧
      e.offset = ((32770 % 32768 : Nat) : Int) :=
  constructor_offsets memFile crc32c.ref [] 32770 [97] (by decide)

/-! ## Termination -/

theorem loop_fuel_succ {σ : Type} (file : WritableFile σ) (crc : Crc32c) :
    ∀ (fuel : Nat) (w : Writer σ) (ptr : List Nat) (left : Nat) (b : Bool)
      (w' : Writer σ) (s : Status) (es : List Emission),
      AddRecordLoop file crc fuel w ptr left b = Outcome.done w' s es →
      AddRecordLoop file crc (fuel + 1) w ptr left b = Outcome.done w' s es := by
  intro fuel
  induction fuel with
  | zero =>
    intro w ptr left b w' s es h
    rw [AddRecordLoop] at h
    exact Outcome.noConfusion h
  | succ n ih =>
    intro w ptr left b w' s es h
    rw [AddRecordLoop] at h
    rw [AddRecordLoop]
    cases hb : AddRecordBody file crc w ptr left b with
    | none => rw [hb] at h; exact Outcome.noConfusion h
    | some it =>
      rw [hb] at h
      simp only at h ⊢
      by_cases hc : (it.s.ok && decide (it.left > 0)) = true
      · rw [if_pos hc] at h ⊢
        cases hr : AddRecordLoop file crc n it.w it.ptr it.left false with
        | done w2 s2 es2 =>
          rw [hr] at h
          rw [ih it.w it.ptr it.left false w2 s2 es2 hr]
          exact h
        | assertFailed => rw [hr] at h; exact Outcome.noConfusion h
        | outOfFuel => rw [hr] at h; exact Outcome.noConfusion h
      · rw [if_neg hc] at h ⊢
        exact h

theorem loop_fuel_mono {σ : Type} (file : WritableFile σ) (crc : Crc32c)
    (fuel : Nat) (w : Writer σ) (ptr : List Nat) (left : Nat) (b : Bool)
    (w' : Writer σ) (s : Status) (es : List Emission)
    (h : AddRecordLoop file crc fuel w ptr left b = Outcome.done w' s es) :
    ∀ fuel', fuel ≤ fuel' →
      AddRecordLoop file crc fuel' w ptr left b = Outcome.done w' s es := by
  intro fuel' hle
  induction fuel' with
  | zero =>
    have : fuel = 0 := by omega
    subst this
    exact h
  | succ n ih =>
    by_cases hn : fuel ≤ n
    · exact loop_fuel_succ file crc n w ptr left b w' s es (ih hn)
    · have : fuel = n + 1 := by omega
      subst this
      exact h

/-- C12 (termination).  From every block offset in `[0, 32768]`, for every
record of `n` bytes and whatever the destination replies, the loop of AddRecord
ends: with `n + 2` iterations allowed, and with any larger allowance, it returns
the same result; it emits at least one fragment and at most
`1 + ceil(n / 32761)`. -/
theorem AddRecord_terminates {σ : Type} (file : WritableFile σ) (crc : Crc32c)
    (w : Writer σ) (S : List Nat)
    (h0 : 0 ≤ w.block_offset_) (h1 : w.block_offset_ ≤ 32768) :
    ∃ w' s es, AddRecord file crc w S = Outcome.done w' s es ∧
      (∀ fuel, S.length + 2 ≤ fuel →
        AddRecordLoop file crc fuel w S S.length true = Outcome.done w' s es) ∧
      1 ≤ es.length ∧ es.length ≤ 1 + (S.length + 32760) / 32761 := by
  obtain ⟨w', s, es, hrun, h1', _, h3⟩ := AddRecord_rule file crc
    (fun w _ left _ _ _ es =>
      1 ≤ es.length ∧
      (startOffset w.block_offset_ = 0 → 0 < left → es.length ≤ (left + 32760) / 32761) ∧
      es.length ≤ 1 + (left + 32760) / 32761)
    (by
      intro w ptr left b _ _ _
      refine ⟨le_refl _, ?_, ?_⟩
      · intro _ hl
        simp only [List.length_singleton]
        omega
      · simp only [List.length_singleton]
        omega)
    (by
      intro w ptr left b h0 h1 _ hl w' s' es ih
      obtain ⟨hfl, hlt, hoff⟩ := iterAt_left_pos file crc w ptr left b h0 h1 hl
      have hleft : (iterAt file crc w ptr left b).left = left - availAt w.block_offset_ := by
        rw [← hfl]; rfl
      have ha := availAt_le w.block_offset_ h0 h1
      obtain ⟨i1, i2, _⟩ := ih
      have hso : startOffset (iterAt file crc w ptr left b).w.block_offset_ = 0 := by
        rw [hoff]; decide
      have i2' := i2 hso hl
      rw [hleft] at i2'
      refine ⟨?_, ?_, ?_⟩
      · simp only [List.length_cons]
        omega
      · intro hs _
        simp only [List.length_cons]
        omega
      · simp only [List.length_cons]
        omega)
    w S h0 h1
  refine ⟨w', s, es, hrun, ?_, h1', h3⟩
  exact loop_fuel_mono file crc (S.length + 2) w S S.length true w' s es hrun

/-- Witness of C12: a two-byte record added at offset 32761 on a destination
that fails its first call. -/
theorem AddRecord_terminates_witness :
    ∃ w' s es, AddRecord (scripted (failAt 0 5)) crc32c.ref
        (Writer.newAt crc32c.ref ⟨[], []⟩ 32761) [97, 98] = Outcome.done w' s es ∧
      (∀ fuel, ([97, 98] : List Nat).length + 2 ≤ fuel →
        AddRecordLoop (scripted (failAt 0 5)) crc32c.ref fuel
          (Writer.newAt crc32c.ref ⟨[], []⟩ 32761) [97, 98] ([97, 98] : List Nat).length true
          = Outcome.done w' s es) ∧
      1 ≤ es.length ∧ es.length ≤ 1 + (([97, 98] : List Nat).length + 32760) / 32761 :=
  AddRecord_terminates (scripted (failAt 0 5)) crc32c.ref
    (Writer.newAt crc32c.ref ⟨[], []⟩ 32761) [97, 98] (by decide) (by decide)

/-! ## The fragments after the first -/

/-- An iteration that is not the first of its record starts at block offset
32768 with bytes left: its fragment starts at offset 0 after no trailer, is a
Middle or a Last fragment and carries at least one byte. -/
theorem iterAt_later {σ : Type} (file : WritableFile σ) (crc : Crc32c) (w : Writer σ)
    (ptr : List Nat) (left : Nat) (ho : w.block_offset_ = 32768) (hl : 0 < left)
    (hlen : left = ptr.length) :
    (iterAt file crc w ptr left false).emission.top_offset = 32768 ∧
    (iterAt file crc w ptr left false).emission.trailer = none ∧
    (iterAt file crc w ptr left false).emission.offset = 0 ∧
    ((iterAt file crc w ptr left false).emission.type = RecordType.kMiddleType ∨
      (iterAt file crc w ptr left false).emission.type = RecordType.kLastType) ∧
    1 ≤ (iterAt file crc w ptr left false).emission.length ∧
    (iterAt file crc w ptr left false).emission.payload.length
      = (iterAt file crc w ptr left false).emission.length := by
  have hb := iterAt_blockBoundary file crc w ptr left false (by rw [ho]; decide) (by rw [ho])
  obtain ⟨_, _, _, hzero, _⟩ := hb
  have htop : (iterAt file crc w ptr left false).emission.top_offset = 32768 := ho
  obtain ⟨ht, hoff⟩ := hzero (by rw [htop]; decide)
  have ha : availAt w.block_offset_ = 32761 := by rw [ho]; decide
  have hfl := fragLen_le w.block_offset_ left
  have hlen' : (iterAt file crc w ptr left false).emission.length
      = fragLen w.block_offset_ left := rfl
  have hpos : 1 ≤ fragLen w.block_offset_ left := by
    unfold fragLen; split_ifs <;> omega
  refine ⟨htop, ht, hoff, ?_, by rw [hlen']; exact hpos, ?_⟩
  · show SelectType false _ = _ ∨ SelectType false _ = _
    cases (left == fragLen w.block_offset_ left)
    · left; rfl
    · right; rfl
  · show (List.take (fragLen w.block_offset_ left) ptr).length = fragLen w.block_offset_ left
    rw [List.length_take]
    omega

/-- The shape of the emissions of one call of AddRecord, whatever the
destination replies: the emission of the first iteration, then emissions that
all start at offset 0 of a fresh block. -/
theorem addRecord_shape {σ : Type} (file : WritableFile σ) (crc : Crc32c) (w : Writer σ)
    (S : List Nat) (h0 : 0 ≤ w.block_offset_) (h1 : w.block_offset_ ≤ 32768) :
    ∃ w' s rest, AddRecord file crc w S =
        Outcome.done w' s ((iterAt file crc w S S.length true).emission :: rest) ∧
      ∀ e ∈ rest, e.top_offset = 32768 ∧ e.trailer = none ∧ e.offset = 0 ∧
        (e.type = RecordType.kMiddleType ∨ e.type = RecordType.kLastType) ∧
        1 ≤ e.length ∧ e.payload.length = e.length := by
  obtain ⟨w', s, es, hrun, hP⟩ := AddRecord_rule file crc
    (fun w ptr left b _ _ es => left = ptr.length →
      ∃ rest, es = (iterAt file crc w ptr left b).emission :: rest ∧
        ∀ e ∈ rest, e.top_offset = 32768 ∧ e.trailer = none ∧ e.offset = 0 ∧
          (e.type = RecordType.kMiddleType ∨ e.type = RecordType.kLastType) ∧
          1 ≤ e.length ∧ e.payload.length = e.length)
    (fun _ _ _ _ _ _ _ _ => ⟨[], rfl, fun e he => absurd he (List.not_mem_nil e)⟩)
    (by
      intro w ptr left b h0 h1 _ hl w' s' es ih hlen
      obtain ⟨_, _, hoff⟩ := iterAt_left_pos file crc w ptr left b h0 h1 hl
      have hlen' : (iterAt file crc w ptr left b).left
          = (iterAt file crc w ptr left b).ptr.length := by
        show left - fragLen w.block_offset_ left
          = (List.drop (fragLen w.block_offset_ left) ptr).length
        rw [List.length_drop, hlen]
      obtain ⟨rest, hes, hrest⟩ := ih hlen'
      refine ⟨es, rfl, ?_⟩
      intro e he
      rw [hes] at he
      rcases List.mem_cons.mp he with h | h
      · rw [h]
        exact iterAt_later file crc _ _ _ hoff hl hlen'
      · exact hrest e h)
    w S h0 h1
  obtain ⟨rest, hes, hrest⟩ := hP rfl
  exact ⟨w', s, rest, by rw [hrun, hes], hrest⟩

/-- C13, refuted as stated: a writer constructed at existing length 32761 has
exactly 7 bytes left in its block; in the first iteration of AddRecord the
payload space `32768 - offset - 7` is 0, not at least 1. -/
theorem available_counterexample :
    ∃ w' e rest, AddRecord memFile crc32c.ref (Writer.newAt crc32c.ref [] 32761) [97, 98]
        = Outcome.done w' Status.OK (e :: rest) ∧
      Reachable memFile crc32c.ref (Writer.newAt crc32c.ref [] 32761) ∧
      kBlockSize - e.offset - kHeaderSize = 0 ∧
      ¬ (1 ≤ kBlockSize - e.offset - kHeaderSize) :=
  ⟨{ dest_ := [100, 81, 208, 233, 0, 0, 2, 202, 197, 140, 85, 2, 0, 4, 97, 98],
     block_offset_ := 9, type_crc_ := InitTypeCrc crc32c.ref },
   { top_offset := 32761, trailer := none, offset := 32761, type := RecordType.kFirstType,
     length := 0, payload := [], status := Status.OK },
   [{ top_offset := 32768, trailer := none, offset := 0, type := RecordType.kLastType,
      length := 2, payload := [97, 98], status := Status.OK }],
   rfl, Reachable.newAt [] 32761, by decide, by decide⟩

/-- C13, amended (room for the payload).  In every reachable writer state and
whatever the destination replies, the payload space computed after the
block-boundary handling, `available = 32768 - offset - 7`, is at least 0 in
every iteration of the loop of AddRecord; in the first iteration it is 0 exactly
when the call begins at block offset 32761 (exactly 7 bytes left in the block)
and at least 1 otherwise; in every later iteration it is 32761. -/
theorem available_nonneg {σ : Type} (file : WritableFile σ) (crc : Crc32c)
    (w : Writer σ) (hr : Reachable file crc w) (S : List Nat) :
    ∃ w' s e rest, AddRecord file crc w S = Outcome.done w' s (e :: rest) ∧
      0 ≤ kBlockSize - e.offset - kHeaderSize ∧
      (kBlockSize - e.offset - kHeaderSize = 0 ↔ w.block_offset_ = 32761) ∧
      (w.block_offset_ ≠ 32761 → 1 ≤ kBlockSize - e.offset - kHeaderSize) ∧
      ∀ e' ∈ rest, kBlockSize - e'.offset - kHeaderSize = 32761 := by
  obtain ⟨h0, h1, _⟩ := reachable_range file crc w hr
  obtain ⟨w', s, rest, hrun, hrest⟩ := addRecord_shape file crc w S h0 h1
  have hs := startOffset_range w.block_offset_ h0 h1
  have ho : (iterAt file crc w S S.length true).emission.offset
      = startOffset w.block_offset_ := rfl
  have hso : startOffset w.block_offset_ = 32761 ↔ w.block_offset_ = 32761 := by
    unfold startOffset kBlockSize kHeaderSize
    split_ifs <;> omega
  refine ⟨w', s, _, rest, hrun, ?_, ?_, ?_, ?_⟩
  · rw [ho]; unfold kBlockSize kHeaderSize; omega
  · rw [ho, ← hso]; unfold kBlockSize kHeaderSize; omega
  · intro hne
    have : startOffset w.block_offset_ ≠ 32761 := fun h => hne (hso.mp h)
    rw [ho]; unfold kBlockSize kHeaderSize; omega
  · intro e' he'
    obtain ⟨_, _, hoff, _⟩ := hrest e' he'
    rw [hoff]; decide

/-- Witness of C13 amended: the writer constructed at existing length 32761. -/
theorem available_nonneg_witness :
    ∃ w' s e rest, AddRecord memFile crc32c.ref (Writer.newAt crc32c.ref [] 32761) [97, 98]
        = Outcome.done w' s (e :: rest) ∧
      0 ≤ kBlockSize - e.offset - kHeaderSize ∧
      (kBlockSize - e.offset - kHeaderSize = 0 ↔
        (Writer.newAt crc32c.ref ([] : List Nat) 32761).block_offset_ = 32761) ∧
      ((Writer.newAt crc32c.ref ([] : List Nat) 32761).block_offset_ ≠ 32761 →
        1 ≤ kBlockSize - e.offset - kHeaderSize) ∧
      ∀ e' ∈ rest, kBlockSize - e'.offset - kHeaderSize = 32761 :=
  available_nonneg memFile crc32c.ref (Writer.newAt crc32c.ref [] 32761)
    (Reachable.newAt [] 32761) [97, 98]

/-- C18 (zero-length fragments).  From every block offset in `[0, 32768]`, for
every record and whatever the destination replies: the first fragment AddRecord
emits is of type Full or First, and its payload is empty exactly when the
record is empty or the call begins at block offset 32761 (exactly 7 bytes left
in the block); every later fragment is of type Middle or Last and carries at
least one payload byte.  So a fragment with an empty payload is the first one of
its record, of type Full or First, and every Middle and every Last fragment
carries at least one byte. -/
theorem zero_length_fragments {σ : Type} (file : WritableFile σ) (crc : Crc32c)
    (w : Writer σ) (S : List Nat)
    (h0 : 0 ≤ w.block_offset_) (h1 : w.block_offset_ ≤ 32768) :
    ∃ w' s e rest, AddRecord file crc w S = Outcome.done w' s (e :: rest) ∧
      (e.type = RecordType.kFullType ∨ e.type = RecordType.kFirstType) ∧
      e.payload.length = e.length ∧
      (e.payload = [] ↔ (S = [] ∨ w.block_offset_ = 32761)) ∧
      (∀ e' ∈ rest, (e'.type = RecordType.kMiddleType ∨ e'.type = RecordType.kLastType) ∧
        1 ≤ e'.payload.length) ∧
      (∀ e' ∈ e :: rest, e'.payload = [] →
        e' = e ∧ (S = [] ∨ w.block_offset_ = 32761)) ∧
      (∀ e' ∈ e :: rest, e'.type = RecordType.kMiddleType ∨ e'.type = RecordType.kLastType →
        1 ≤ e'.payload.length) := by
  obtain ⟨w', s, rest, hrun, hrest⟩ := addRecord_shape file crc w S h0 h1
  have hs := startOffset_range w.block_offset_ h0 h1
  have ha := availAt_le w.block_offset_ h0 h1
  have hfl := fragLen_le w.block_offset_ S.length
  have hso : startOffset w.block_offset_ = 32761 ↔ w.block_offset_ = 32761 := by
    unfold startOffset kBlockSize kHeaderSize
    split_ifs <;> omega
  have hty : (iterAt file crc w S S.length true).emission.type = RecordType.kFullType ∨
      (iterAt file crc w S S.length true).emission.type = RecordType.kFirstType := by
    show SelectType true _ = _ ∨ SelectType true _ = _
    cases (S.length == fragLen w.block_offset_ S.length)
    · right; rfl
    · left; rfl
  have hpl : (iterAt file crc w S S.length true).emission.payload.length
      = fragLen w.block_offset_ S.length := by
    show (List.take (fragLen w.block_offset_ S.length) S).length = _
    rw [List.length_take]; omega
  have hzero : (iterAt file crc w S S.length true).emission.payload = [] ↔
      (S = [] ∨ w.block_offset_ = 32761) := by
    rw [← List.length_eq_zero, hpl, ← hso, ← List.length_eq_zero]
    unfold fragLen
    split_ifs <;> omega
  have hrest' : ∀ e' ∈ rest,
      (e'.type = RecordType.kMiddleType ∨ e'.type = RecordType.kLastType) ∧
        1 ≤ e'.payload.length := by
    intro e' he'
    obtain ⟨_, _, _, ht, hpos, hp⟩ := hrest e' he'
    exact ⟨ht, by rw [hp]; exact hpos⟩
  refine ⟨w', s, _, rest, hrun, hty, hpl, hzero, hrest', ?_, ?_⟩
  · intro e' he' hnil
    rcases List.mem_cons.mp he' with h | h
    · exact ⟨h, hzero.mp (h ▸ hnil)⟩
    · have := (hrest' e' h).2
      rw [hnil] at this
      exact absurd this (by decide)
  · intro e' he' ht
    rcases List.mem_cons.mp he' with h | h
    · rw [h] at ht
      rcases hty with h1 | h1 <;> rcases ht with h2 | h2 <;> rw [h1] at h2 <;>
        exact RecordType.noConfusion h2
    · exact (hrest' e' h).2

/-- Witness of C18: a two-byte record added at block offset 32761 is emitted as
an empty First fragment and a Last fragment of two bytes. -/
theorem zero_length_fragments_witness :
    ∃ w' s e rest, AddRecord memFile crc32c.ref (Writer.newAt crc32c.ref [] 32761) [97, 98]
        = Outcome.done w' s (e :: rest) ∧
      (e.type = RecordType.kFullType ∨ e.type = RecordType.kFirstType) ∧
      e.payload.length = e.length ∧
      (e.payload = [] ↔ (([97, 98] : List Nat) = [] ∨
        (Writer.newAt crc32c.ref ([] : List Nat) 32761).block_offset_ = 32761)) ∧
      (∀ e' ∈ rest, (e'.type = RecordType.kMiddleType ∨ e'.type = RecordType.kLastType) ∧
        1 ≤ e'.payload.length) ∧
      (∀ e' ∈ e :: rest, e'.payload = [] →
        e' = e ∧ (([97, 98] : List Nat) = [] ∨
          (Writer.newAt crc32c.ref ([] : List Nat) 32761).block_offset_ = 32761)) ∧
      (∀ e' ∈ e :: rest, e'.type = RecordType.kMiddleType ∨ e'.type = RecordType.kLastType →
        1 ≤ e'.payload.length) :=
  zero_length_fragments memFile crc32c.ref (Writer.newAt crc32c.ref [] 32761) [97, 98]
    (by decide) (by decide)

/-! ## Fragment sizes -/

theorem iterAt_payload_length {σ : Type} (file : WritableFile σ) (crc : Crc32c) (w : Writer σ)
    (ptr : List Nat) (left : Nat) (b : Bool) (hlen : left = ptr.length) :
    (iterAt file crc w ptr left b).emission.payload.length = fragLen w.block_offset_ left ∧
    (iterAt file crc w ptr left b).left = (iterAt file crc w ptr left b).ptr.length := by
  have hfl := fragLen_le w.block_offset_ left
  constructor
  · show (List.take (fragLen w.block_offset_ left) ptr).length = _
    rw [List.length_take]; omega
  · show left - fragLen w.block_offset_ left
      = (List.drop (fragLen w.block_offset_ left) ptr).length
    rw [List.length_drop, hlen]

/-- Every fragment but the last of a call ends exactly on a block boundary. -/
theorem addRecord_fills_blocks {σ : Type} (file : WritableFile σ) (crc : Crc32c)
    (w : Writer σ) (S : List Nat)
    (h0 : 0 ≤ w.block_offset_) (h1 : w.block_offset_ ≤ 32768) :
    ∃ w' s init last, AddRecord file crc w S = Outcome.done w' s (init ++ [last]) ∧
      ∀ e ∈ init, e.offset + kHeaderSize + e.payload.length = kBlockSize := by
  obtain ⟨w', s, es, hrun, hP⟩ := AddRecord_rule file crc
    (fun _ ptr left _ _ _ es => left = ptr.length →
      ∃ init last, es = init ++ [last] ∧
        ∀ e ∈ init, e.offset + kHeaderSize + e.payload.length = kBlockSize)
    (fun _ _ _ _ _ _ _ _ => ⟨[], _, rfl, fun e he => absurd he (List.not_mem_nil e)⟩)
    (by
      intro w ptr left b h0 h1 _ hl w' s' es ih hlen
      obtain ⟨hfl, _, _⟩ := iterAt_left_pos file crc w ptr left b h0 h1 hl
      obtain ⟨hpl, hlen'⟩ := iterAt_payload_length file crc w ptr left b hlen
      have ha := availAt_le w.block_offset_ h0 h1
      obtain ⟨init, last, hes, hinit⟩ := ih hlen'
      refine ⟨(iterAt file crc w ptr left b).emission :: init, last, by rw [hes]; rfl, ?_⟩
      intro e he
      rcases List.mem_cons.mp he with h | h
      · rw [h, hpl, hfl]
        show startOffset w.block_offset_ + kHeaderSize + _ = kBlockSize
        unfold kHeaderSize kBlockSize
        omega
      · exact hinit e h)
    w S h0 h1
  obtain ⟨init, last, hes, hinit⟩ := hP rfl
  exact ⟨w', s, init, last, by rw [hrun, hes], hinit⟩

/-- The types and payload lengths of the fragments of a record that starts at
the beginning of a block, on a destination that never fails. -/
theorem addRecord_sizes {σ : Type} (file : WritableFile σ) (crc : Crc32c)
    (hf : NeverFails file) (w : Writer σ) (S : List Nat)
    (h0 : 0 ≤ w.block_offset_) (h1 : w.block_offset_ ≤ 32768)
    (hso : startOffset w.block_offset_ = 0) (hpos : 0 < S.length) :
    ∃ w' es, AddRecord file crc w S = Outcome.done w' Status.OK es ∧
      es.map (fun e => (e.type, e.payload.length)) =
        if S.length ≤ 32761 then [(RecordType.kFullType, S.length)]
        else (RecordType.kFirstType, 32761) ::
          (List.replicate ((S.length - 1) / 32761 - 1) (RecordType.kMiddleType, 32761) ++
            [(RecordType.kLastType, S.length - 32761 * ((S.length - 1) / 32761))]) := by
  obtain ⟨w', s, es, hrun, hP⟩ := AddRecord_rule file crc
    (fun w ptr left b _ s es => left = ptr.length → startOffset w.block_offset_ = 0 →
      0 < left → s = Status.OK ∧
      es.map (fun e => (e.type, e.payload.length)) =
        if left ≤ 32761 then [(SelectType b true, left)]
        else (SelectType b false, 32761) ::
          (List.replicate ((left - 1) / 32761 - 1) (RecordType.kMiddleType, 32761) ++
            [(RecordType.kLastType, left - 32761 * ((left - 1) / 32761))]))
    (by
      intro w ptr left b h0 h1 hc hlen hso hpos
      have hz : ¬ 0 < left - fragLen w.block_offset_ left := fun hl =>
        hc ⟨by rw [iterAt_neverFails file hf crc w ptr left b]; rfl, hl⟩
      have hle := fragLen_le w.block_offset_ left
      have ha := availAt_le w.block_offset_ h0 h1
      have hfl : fragLen w.block_offset_ left = left := by omega
      obtain ⟨hpl, _⟩ := iterAt_payload_length file crc w ptr left b hlen
      have hend : (left == fragLen w.block_offset_ left) = true := by rw [hfl]; simp
      refine ⟨iterAt_neverFails file hf crc w ptr left b, ?_⟩
      rw [if_pos (by omega)]
      show [((iterAt file crc w ptr left b).emission.type,
        (iterAt file crc w ptr left b).emission.payload.length)] = _
      rw [hpl, hfl]
      show [(SelectType b (left == fragLen w.block_offset_ left), left)] = _
      rw [hend])
    (by
      intro w ptr left b h0 h1 _ hl w' s' es ih hlen hso hpos
      obtain ⟨hfl, hlt, hoff⟩ := iterAt_left_pos file crc w ptr left b h0 h1 hl
      obtain ⟨hpl, hlen'⟩ := iterAt_payload_length file crc w ptr left b hlen
      have ha := availAt_le w.block_offset_ h0 h1
      have hav : availAt w.block_offset_ = 32761 := by omega
      have hleft : (iterAt file crc w ptr left b).left = left - 32761 := by
        rw [← hav, ← hfl]; rfl
      have hend : (left == fragLen w.block_offset_ left) = false := by
        rw [hfl]; simp; omega
      obtain ⟨hs, hes⟩ := ih hlen' (by rw [hoff]; decide) hl
      rw [hleft] at hes
      refine ⟨hs, ?_⟩
      rw [if_neg (by omega)]
      show ((iterAt file crc w ptr left b).emission.type,
        (iterAt file crc w ptr left b).emission.payload.length) ::
          es.map (fun e => (e.type, e.payload.length)) = _
      rw [hpl, hfl, hav, hes]
      show (SelectType b (left == fragLen w.block_offset_ left), 32761) :: _ = _
      rw [hend]
      refine congrArg (List.cons _) ?_
      by_cases hsmall : left - 32761 ≤ 32761
      · rw [if_pos hsmall]
        have hq : (left - 1) / 32761 - 1 = 0 := by omega
        have hr : left - 32761 * ((left - 1) / 32761) = left - 32761 := by omega
        rw [hq, hr]
        rfl
      · rw [if_neg hsmall]
        obtain ⟨m, hm1, hm2⟩ : ∃ m, (left - 1) / 32761 - 1 = m + 1 ∧
            (left - 32761 - 1) / 32761 - 1 = m := ⟨(left - 32761 - 1) / 32761 - 1,
              by omega, rfl⟩
        have hr : left - 32761 - 32761 * ((left - 32761 - 1) / 32761)
            = left - 32761 * ((left - 1) / 32761) := by omega
        rw [hm1, hm2, hr, List.replicate_succ]
        rfl)
    w S h0 h1
  obtain ⟨hs, hes⟩ := hP rfl hso hpos
  subst hs
  exact ⟨w', es, hrun, hes⟩

/-- On a destination that never fails AddRecord returns OK. -/
theorem addRecord_neverFails_ok {σ : Type} (file : WritableFile σ) (crc : Crc32c)
    (hf : NeverFails file) (w : Writer σ) (S : List Nat)
    (h0 : 0 ≤ w.block_offset_) (h1 : w.block_offset_ ≤ 32768) :
    ∃ w' es, AddRecord file crc w S = Outcome.done w' Status.OK es ∧ es ≠ [] := by
  obtain ⟨w', s, es, hrun, hs, hne⟩ := AddRecord_rule file crc
    (fun _ _ _ _ _ s es => s = Status.OK ∧ es ≠ [])
    (fun w ptr left b _ _ _ =>
      ⟨iterAt_neverFails file hf crc w ptr left b, List.cons_ne_nil _ _⟩)
    (fun _ _ _ _ _ _ _ _ _ _ _ ih => ⟨ih.1, List.cons_ne_nil _ _⟩)
    w S h0 h1
  subst hs
  exact ⟨w', es, hrun, hne⟩

/-- C14 (fragment sizes).  On a destination that never fails, from every block
offset in `[0, 32768]`, every fragment of a record but its last ends exactly on
a block boundary: `offset + 7 + payload length = 32768`.  From block offset 0 a
record of `n > 0` bytes is emitted as `ceil(n / 32761)` fragments, each but the
last carrying exactly 32761 payload bytes and the last carrying the rest; a
record of 70000 bytes is emitted as First 32761, Middle 32761, Last 4478. -/
theorem AddRecord_fragment_sizes {σ : Type} (file : WritableFile σ) (crc : Crc32c)
    (hf : NeverFails file) (w : Writer σ) (S : List Nat)
    (h0 : 0 ≤ w.block_offset_) (h1 : w.block_offset_ ≤ 32768) :
    ∃ w' init last, AddRecord file crc w S = Outcome.done w' Status.OK (init ++ [last]) ∧
      (∀ e ∈ init, e.offset + kHeaderSize + e.payload.length = kBlockSize) ∧
      (w.block_offset_ = 0 → 0 < S.length →
        (init ++ [last]).length = (S.length + 32760) / 32761 ∧
        (∀ e ∈ init, e.payload.length = 32761) ∧
        last.payload.length = S.length - 32761 * init.length ∧
        (S.length = 70000 →
          (init ++ [last]).map (fun e => (e.type, e.payload.length)) =
            [(RecordType.kFirstType, 32761), (RecordType.kMiddleType, 32761),
             (RecordType.kLastType, 4478)])) := by
  obtain ⟨w', s, init, last, hrun, hinit⟩ := addRecord_fills_blocks file crc w S h0 h1
  obtain ⟨w1, es1, hrun1, _⟩ := addRecord_neverFails_ok file crc hf w S h0 h1
  rw [hrun] at hrun1
  simp only [Outcome.done.injEq] at hrun1
  obtain ⟨_, hs, _⟩ := hrun1
  subst hs
  refine ⟨w', init, last, hrun, hinit, ?_⟩
  intro hw hpos
  obtain ⟨w2, es2, hrun2, hmap⟩ := addRecord_sizes file crc hf w S h0 h1
    (by rw [hw]; decide) hpos
  rw [hrun] at hrun2
  simp only [Outcome.done.injEq] at hrun2
  obtain ⟨_, _, hes⟩ := hrun2
  rw [← hes] at hmap
  have hlen := congrArg List.length hmap
  rw [List.length_map] at hlen
  have hlast := congrArg List.getLast? hmap
  have hinit' := congrArg List.dropLast hmap
  rw [List.map_append, List.map_cons, List.map_nil] at hlast hinit'
  rw [List.getLast?_append, List.getLast?_singleton, Option.or_some] at hlast
  rw [List.dropLast_concat] at hinit'
  by_cases hsmall : S.length ≤ 32761
  · rw [if_pos hsmall] at hlen hlast hinit'
    have hi : init = [] := by
      have := congrArg List.length hinit'
      simpa using this
    subst hi
    simp only [List.getLast?_singleton, Option.some.injEq, Prod.mk.injEq] at hlast
    refine ⟨by rw [hlen]; simp only [List.length_singleton]; omega,
      fun e he => absurd he (List.not_mem_nil e), ?_, fun h => by omega⟩
    rw [hlast.2]; simp
  · rw [if_neg hsmall] at hlen hlast hinit' hmap
    have hcons : (RecordType.kFirstType, 32761) ::
        (List.replicate ((S.length - 1) / 32761 - 1) (RecordType.kMiddleType, 32761) ++
          [(RecordType.kLastType, S.length - 32761 * ((S.length - 1) / 32761))])
        = ((RecordType.kFirstType, 32761) ::
          List.replicate ((S.length - 1) / 32761 - 1) (RecordType.kMiddleType, 32761)) ++
          [(RecordType.kLastType, S.length - 32761 * ((S.length - 1) / 32761))] := rfl
    rw [hcons] at hlast hinit'
    rw [List.getLast?_append, List.getLast?_singleton, Option.or_some] at hlast
    rw [List.dropLast_concat] at hinit'
    simp only [Option.some.injEq, Prod.mk.injEq] at hlast
    have hil : init.length = (S.length - 1) / 32761 := by
      have := congrArg List.length hinit'
      simp only [List.length_map, List.length_cons, List.length_replicate] at this
      omega
    refine ⟨?_, ?_, by rw [hlast.2, hil], ?_⟩
    · rw [hlen]
      simp only [List.length_cons, List.length_append, List.length_replicate,
        List.length_singleton, List.length_nil]
      omega
    · intro e he
      have hmem : (e.type, e.payload.length) ∈
          init.map (fun e => (e.type, e.payload.length)) :=
        List.mem_map_of_mem _ he
      rw [hinit'] at hmem
      rcases List.mem_cons.mp hmem with h | h
      · exact (Prod.mk.inj h).2
      · exact (Prod.mk.inj (List.eq_of_mem_replicate h)).2
    · intro h70
      rw [hmap, h70]
      rfl

/-- Witness of C14: a record of 70000 bytes added by a fresh writer. -/
theorem AddRecord_fragment_sizes_witness :
    ∃ w' init last, AddRecord memFile crc32c.ref (Writer.new crc32c.ref [])
        (List.replicate 70000 7) = Outcome.done w' Status.OK (init ++ [last]) ∧
      (∀ e ∈ init, e.offset + kHeaderSize + e.payload.length = kBlockSize) ∧
      (init ++ [last]).map (fun e => (e.type, e.payload.length)) =
        [(RecordType.kFirstType, 32761), (RecordType.kMiddleType, 32761),
         (RecordType.kLastType, 4478)] :=
  match AddRecord_fragment_sizes memFile crc32c.ref memFile_neverFails
      (Writer.new crc32c.ref []) (List.replicate 70000 7) (le_refl _) (by decide) with
  | ⟨w', init, last, hrun, hfill, h⟩ =>
    ⟨w', init, last, hrun, hfill,
      (h rfl (by rw [List.length_replicate]; decide)).2.2.2 (List.length_replicate _ _)⟩

/-! ## The cursor -/

/-- C15 (unconditional cursor advance).  Whenever EmitPhysicalRecord returns,
the block offset has grown by exactly `7 + length`, whatever status it returns;
and it returns whenever its assertions hold (offset at least 0 and
`offset + 7 + length ≤ 32768`).  On a recording destination with arbitrary
replies: the offset has grown by `7 + length` in each of the three cases where
none of the bytes (the header append failed), only the 7 header bytes (the
payload append failed), or all `7 + length` bytes reached the destination. -/
theorem EmitPhysicalRecord_advances {σ : Type} (file : WritableFile σ) (crc : Crc32c)
    (w : Writer σ) (t : RecordType) (ptr : List Nat) (n : Nat)
    (h0 : 0 ≤ w.block_offset_) (h1 : w.block_offset_ + 7 + n ≤ 32768) :
    (∀ (v v' : Writer σ) (s : Status), EmitPhysicalRecord file crc v t ptr n = some (v', s) →
      v'.block_offset_ = v.block_offset_ + kHeaderSize + n) ∧
    (∃ w' s, EmitPhysicalRecord file crc w t ptr n = some (w', s) ∧
      w'.block_offset_ = w.block_offset_ + kHeaderSize + n) ∧
    (∀ (env : List (Call × Status) → Call → Status) (d : Recorder),
      ∃ v' s, EmitPhysicalRecord (scripted env) crc
          { dest_ := d, block_offset_ := w.block_offset_, type_crc_ := w.type_crc_ } t ptr n
          = some (v', s) ∧
        v'.block_offset_ = w.block_offset_ + kHeaderSize + n ∧
        ((s.ok = false ∧ v'.dest_.contents = d.contents) ∨
         (s.ok = false ∧ v'.dest_.contents = d.contents ++ FormatHeader crc w.type_crc_ t ptr n) ∨
         (v'.dest_.contents = d.contents ++ FormatHeader crc w.type_crc_ t ptr n
            ++ ptr.take n))) := by
  refine ⟨?_, ⟨_, _, emit_some file crc w t ptr n h0 h1, rfl⟩, ?_⟩
  · intro v v' s h
    exact (emit_result file crc v v' t ptr n s h).2.2.1
  · intro env d
    refine ⟨_, _, emit_some (scripted env) crc
      { dest_ := d, block_offset_ := w.block_offset_, type_crc_ := w.type_crc_ } t ptr n h0 h1,
      rfl, ?_⟩
    obtain ⟨c1, c2, c3⟩ := scripted_write_cases env d (FormatHeader crc w.type_crc_ t ptr n)
      (ptr.take n)
    rcases Bool.eq_false_or_eq_true
      ((env d.calls (Call.Append (FormatHeader crc w.type_crc_ t ptr n))).ok) with h1 | h1
    · rcases Bool.eq_false_or_eq_true
        ((env (d.calls ++ [(Call.Append (FormatHeader crc w.type_crc_ t ptr n),
          env d.calls (Call.Append (FormatHeader crc w.type_crc_ t ptr n)))])
          (Call.Append (ptr.take n))).ok) with h2 | h2
      · right; right
        show (WriteHeaderAndPayload (scripted env) d _ _).1.contents = _
        rw [c3 h1 h2]
      · right; left
        show (WriteHeaderAndPayload (scripted env) d _ _).2.ok = false ∧
          (WriteHeaderAndPayload (scripted env) d _ _).1.contents = _
        rw [c2 h1 h2]
        exact ⟨h2, rfl⟩
    · left
      show (WriteHeaderAndPayload (scripted env) d _ _).2.ok = false ∧
        (WriteHeaderAndPayload (scripted env) d _ _).1.contents = _
      rw [c1 h1]
      exact ⟨h1, rfl⟩

/-- Witness of C15: a fragment of one byte emitted at offset 0. -/
theorem EmitPhysicalRecord_advances_witness :
    ∃ w' s, EmitPhysicalRecord (scripted (failAt 0 5)) crc32c.ref
        (Writer.new crc32c.ref ⟨[], []⟩) RecordType.kFullType [97] 1 = some (w', s) ∧
      w'.block_offset_ = (Writer.new crc32c.ref (⟨[], []⟩ : Recorder)).block_offset_
        + kHeaderSize + (1 : Nat) :=
  (EmitPhysicalRecord_advances (scripted (failAt 0 5)) crc32c.ref
    (Writer.new crc32c.ref ⟨[], []⟩) RecordType.kFullType [97] 1 (by decide) (by decide)).2.1

/-! ## The cursor and the file -/

theorem padding_length (o : Int) (h0 : 0 ≤ o) (h1 : o ≤ 32768) :
    (((padding o).length : Int) + o) % 32768 = startOffset o ∧
    ((padding o).length : Int) = (if kBlockSize - o < kHeaderSize then kBlockSize - o else 0) := by
  unfold padding startOffset kBlockSize kHeaderSize
  by_cases h : (32768 : Int) - o < 7
  · by_cases hp : (0 : Int) < 32768 - o
    · simp only [h, hp, and_self, if_true, List.length_replicate]
      omega
    · simp only [h, hp, false_and, if_true, if_false, List.length_nil]
      omega
  · simp only [h, and_false, if_false, List.length_nil]
    omega

theorem memFile_fillTrailer_eq (w : Writer (List Nat))
    (h0 : 0 ≤ w.block_offset_) (h1 : w.block_offset_ ≤ 32768) :
    (FillTrailer memFile w).1.dest_ = w.dest_ ++ padding w.block_offset_ := by
  unfold FillTrailer padding kBlockSize kHeaderSize
  by_cases h : (32768 : Int) - w.block_offset_ < 7
  · by_cases hp : (32768 : Int) - w.block_offset_ > 0
    · have hp' : (0 : Int) < 32768 - w.block_offset_ := hp
      simp only [h, hp, hp', and_self, if_true]
      rw [take_zeros _ (by omega)]
      rfl
    · have hp' : ¬ (0 : Int) < 32768 - w.block_offset_ := hp
      simp only [h, hp, hp', false_and, if_true, if_false, List.append_nil]
  · simp only [h, and_false, if_false, List.append_nil]

/-- The bytes one iteration appends to the never-failing destination: the
trailer padding, the header and the payload of its fragment. -/
theorem memFile_iterAt_bytes (crc : Crc32c) (w : Writer (List Nat)) (ptr : List Nat)
    (left : Nat) (b : Bool) (h0 : 0 ≤ w.block_offset_) (h1 : w.block_offset_ ≤ 32768) :
    (iterAt memFile crc w ptr left b).w.dest_ = w.dest_ ++ padding w.block_offset_ ++
      (FormatHeader crc w.type_crc_ (iterAt memFile crc w ptr left b).emission.type
          (iterAt memFile crc w ptr left b).emission.payload
          (iterAt memFile crc w ptr left b).emission.length ++
        (iterAt memFile crc w ptr left b).emission.payload) := by
  show (WriteHeaderAndPayload memFile (FillTrailer memFile w).1.dest_ _ _).1 = _
  rw [memFile_write, memFile_fillTrailer_eq w h0 h1]
  simp only [iterAt, formatHeader_take, List.append_assoc]

/-- On the never-failing destination every fragment of a call of AddRecord made
in an aligned state starts at a file position congruent to its block offset. -/
theorem memFile_addRecord_positions (crc : Crc32c) (w : Writer (List Nat)) (S : List Nat)
    (h0 : 0 ≤ w.block_offset_) (h1 : w.block_offset_ ≤ 32768)
    (hal : (w.dest_.length : Int) % 32768 = w.block_offset_ % 32768) :
    ∃ w' es, AddRecord memFile crc w S = Outcome.done w' Status.OK es ∧
      ∀ e ∈ es, ∃ pre post,
        w'.dest_ = pre ++ (FormatHeader crc w.type_crc_ e.type e.payload e.length ++ e.payload)
          ++ post ∧
        (pre.length : Int) % 32768 = e.offset ∧
        e.offset + 7 + e.payload.length ≤ 32768 := by
  obtain ⟨w', s, es, hrun, hP⟩ := AddRecord_rule memFile crc
    (fun w ptr left _ w' s es => left = ptr.length →
      (w.dest_.length : Int) % 32768 = w.block_offset_ % 32768 →
      s = Status.OK ∧ (∃ app, w'.dest_ = w.dest_ ++ app) ∧
      ∀ e ∈ es, ∃ pre post,
        w'.dest_ = pre ++ (FormatHeader crc w.type_crc_ e.type e.payload e.length ++ e.payload)
          ++ post ∧
        (pre.length : Int) % 32768 = e.offset ∧
        e.offset + 7 + e.payload.length ≤ 32768)
    (by
      intro w ptr left b h0 h1 _ hlen hal
      have hbytes := memFile_iterAt_bytes crc w ptr left b h0 h1
      obtain ⟨hpl, _⟩ := iterAt_payload_length memFile crc w ptr left b hlen
      have hfl := fragLen_le w.block_offset_ left
      have ha := availAt_le w.block_offset_ h0 h1
      have hs := startOffset_range w.block_offset_ h0 h1
      obtain ⟨hpad, _⟩ := padding_length w.block_offset_ h0 h1
      refine ⟨rfl, ⟨_, by rw [hbytes, List.append_assoc]⟩, ?_⟩
      intro e he
      rw [List.mem_singleton.mp he]
      refine ⟨w.dest_ ++ padding w.block_offset_, [], by rw [hbytes, List.append_nil], ?_, ?_⟩
      · show _ = startOffset w.block_offset_
        rw [List.length_append]
        push_cast
        omega
      · rw [hpl]
        show startOffset w.block_offset_ + 7 + _ ≤ 32768
        omega)
    (by
      intro w ptr left b h0 h1 _ _ w' s' es ih hlen hal
      have hbytes := memFile_iterAt_bytes crc w ptr left b h0 h1
      obtain ⟨hpl, hlen'⟩ := iterAt_payload_length memFile crc w ptr left b hlen
      obtain ⟨hal', _, _, _, _⟩ := memFile_iterAt crc w ptr left b h0 h1 hlen hal
      have hfl := fragLen_le w.block_offset_ left
      have ha := availAt_le w.block_offset_ h0 h1
      have hs := startOffset_range w.block_offset_ h0 h1
      obtain ⟨hpad, _⟩ := padding_length w.block_offset_ h0 h1
      obtain ⟨hs', ⟨app, happ⟩, hrest⟩ := ih hlen' hal'
      refine ⟨hs', ⟨_, by rw [happ, hbytes, List.append_assoc, List.append_assoc]⟩, ?_⟩
      intro e he
      rcases List.mem_cons.mp he with h | h
      · rw [h]
        refine ⟨w.dest_ ++ padding w.block_offset_, app, by rw [happ, hbytes], ?_, ?_⟩
        · show _ = startOffset w.block_offset_
          rw [List.length_append]
          push_cast
          omega
        · rw [hpl]
          show startOffset w.block_offset_ + 7 + _ ≤ 32768
          omega
      · exact hrest e h)
    w S h0 h1
  obtain ⟨hs, _, hall⟩ := hP rfl hal
  subst hs
  exact ⟨w', es, hrun, hall⟩

/-- C16 (cursor and file stay aligned).  Let the never-failing destination hold
the bytes `d` when the writer is constructed with existing length `|d|` (or be
empty, with the one-argument constructor).  After every sequence `rs` of
AddRecord calls the block offset is congruent to the length of the destination
modulo 32768.  Consequently, in the AddRecord call that follows, every fragment
starts at a file position congruent to its block offset, and its header (7
bytes) and the whole fragment (header and payload) lie inside one 32768-byte
block of the file. -/
theorem cursor_file_alignment (crc : Crc32c) (d : List Nat) (rs : List (List Nat))
    (S : List Nat) :
    (∃ w0 ss0, AddRecords memFile crc (Writer.new crc []) rs = some (w0, ss0) ∧
      (w0.dest_.length : Int) % 32768 = w0.block_offset_ % 32768) ∧
    ∃ w ss, AddRecords memFile crc (Writer.newAt crc d d.length) rs = some (w, ss) ∧
      (w.dest_.length : Int) % 32768 = w.block_offset_ % 32768 ∧
      ∃ w' es, AddRecord memFile crc w S = Outcome.done w' Status.OK es ∧
        (w'.dest_.length : Int) % 32768 = w'.block_offset_ % 32768 ∧
        ∀ e ∈ es, ∃ pre post,
          w'.dest_ = pre ++
            (FormatHeader crc w.type_crc_ e.type e.payload e.length ++ e.payload) ++ post ∧
          (pre.length : Int) % 32768 = e.offset ∧
          pre.length / 32768 = (pre.length + 6) / 32768 ∧
          pre.length / 32768 = (pre.length + 6 + e.payload.length) / 32768 := by
  have hnew := newAt_range crc d d.length
  have halign : ((Writer.newAt crc d d.length).dest_.length : Int) % 32768
      = (Writer.newAt crc d d.length).block_offset_ % 32768 := by
    show (d.length : Int) % 32768
      = ((d.length % 18446744073709551616 % 32768 : Nat) : Int) % 32768
    omega
  obtain ⟨w0, ss0, hrun0, hal0, _⟩ := memFile_addRecords crc rs (Writer.new crc [])
    (le_refl _) (by show (0 : Int) ≤ 32768; decide) rfl
  obtain ⟨w, ss, hrun, hal, _, h0, h1, _⟩ := memFile_addRecords crc rs
    (Writer.newAt crc d d.length) hnew.1 (by omega) halign
  obtain ⟨w', es, hrun', hpos⟩ := memFile_addRecord_positions crc w S h0 h1 hal
  obtain ⟨w'', es'', hrun'', hal', _⟩ := memFile_addRecord crc w S h0 h1 hal
  rw [hrun'] at hrun''
  simp only [Outcome.done.injEq, true_and] at hrun''
  obtain ⟨hw, _⟩ := hrun''
  subst hw
  refine ⟨⟨w0, ss0, hrun0, hal0⟩, w, ss, hrun, hal, w', es, hrun', hal', ?_⟩
  intro e he
  obtain ⟨pre, post, hd, hmod, hfit⟩ := hpos e he
  refine ⟨pre, post, hd, hmod, ?_, ?_⟩
  · omega
  · omega

/-! ## Reading the stream back -/

theorem formatHeader_cons (crc : Crc32c) (tc : List Nat) (t : RecordType) (ptr : List Nat)
    (n : Nat) :
    ∃ c0 c1 c2 c3, FormatHeader crc tc t ptr n =
      [c0, c1, c2, c3, n % 256, (n >>> 8) % 256, t.toNat % 256] :=
  ⟨_, _, _, _, rfl⟩

/-- One step of the reader over the bytes of one iteration of the writer. -/
theorem decode_fragment (crc : Crc32c) (tc : List Nat) (t : RecordType) (ptr payload : List Nat)
    (o : Nat) (ho : o ≤ 32768) (hn : payload.length ≤ 32761)
    (fuel : Nat) (acc rest : List Nat) :
    decodeLoop (fuel + 1) o acc
        (padding (o : Int) ++ (FormatHeader crc tc t ptr payload.length ++ payload) ++ rest) =
      if t.toNat = 1 then
        payload :: decodeLoop fuel ((startOffset (o : Int)).toNat + 7 + payload.length) [] rest
      else if t.toNat = 2 then
        decodeLoop fuel ((startOffset (o : Int)).toNat + 7 + payload.length) payload rest
      else if t.toNat = 3 then
        decodeLoop fuel ((startOffset (o : Int)).toNat + 7 + payload.length) (acc ++ payload) rest
      else
        (acc ++ payload) ::
          decodeLoop fuel ((startOffset (o : Int)).toNat + 7 + payload.length) [] rest := by
  obtain ⟨c0, c1, c2, c3, hh⟩ := formatHeader_cons crc tc t ptr payload.length
  obtain ⟨_, hpl⟩ := padding_length (o : Int) (by omega) (by omega)
  have hskip : (if 32768 - o < 7 then 32768 - o else 0) = (padding (o : Int)).length := by
    unfold kBlockSize kHeaderSize at hpl
    split_ifs at hpl ⊢ <;> omega
  have ho1 : (if 32768 - o < 7 then 0 else o) = (startOffset (o : Int)).toNat := by
    unfold startOffset kBlockSize kHeaderSize
    split_ifs <;> omega
  have hne : padding (o : Int) ++ (FormatHeader crc tc t ptr payload.length ++ payload) ++ rest
      ≠ [] := by
    rw [hh]; simp
  have hlen : payload.length % 256 + 256 * ((payload.length >>> 8) % 256) = payload.length := by
    rw [Nat.shiftRight_eq_div_pow]
    omega
  have ht : t.toNat % 256 = t.toNat := by cases t <;> rfl
  rw [decodeLoop, if_neg hne]
  simp only [hskip, ho1, List.append_assoc, List.drop_left]
  rw [hh]
  simp only [List.cons_append, List.nil_append, List.getD_cons_succ, List.getD_cons_zero,
    List.drop_succ_cons, List.drop_zero, hlen, ht, List.take_left, List.drop_left]

/-- One step of the reader over the bytes one iteration of AddRecord appends. -/
theorem decode_iterAt {σ : Type} (file : WritableFile σ) (crc : Crc32c) (w : Writer σ)
    (ptr : List Nat) (left : Nat) (b : Bool)
    (h0 : 0 ≤ w.block_offset_) (h1 : w.block_offset_ ≤ 32768) (hlen : left = ptr.length)
    (fuel : Nat) (acc tail : List Nat) :
    decodeLoop (fuel + 1) w.block_offset_.toNat acc
        (padding w.block_offset_ ++
          (FormatHeader crc w.type_crc_ (iterAt file crc w ptr left b).emission.type
              (iterAt file crc w ptr left b).emission.payload
              (iterAt file crc w ptr left b).emission.length ++
            (iterAt file crc w ptr left b).emission.payload) ++ tail) =
      if (iterAt file crc w ptr left b).emission.type.toNat = 1 then
        (iterAt file crc w ptr left b).emission.payload ::
          decodeLoop fuel (iterAt file crc w ptr left b).w.block_offset_.toNat [] tail
      else if (iterAt file crc w ptr left b).emission.type.toNat = 2 then
        decodeLoop fuel (iterAt file crc w ptr left b).w.block_offset_.toNat
          (iterAt file crc w ptr left b).emission.payload tail
      else if (iterAt file crc w ptr left b).emission.type.toNat = 3 then
        decodeLoop fuel (iterAt file crc w ptr left b).w.block_offset_.toNat
          (acc ++ (iterAt file crc w ptr left b).emission.payload) tail
      else
        (acc ++ (iterAt file crc w ptr left b).emission.payload) ::
          decodeLoop fuel (iterAt file crc w ptr left b).w.block_offset_.toNat [] tail := by
  obtain ⟨hpl, _⟩ := iterAt_payload_length file crc w ptr left b hlen
  have hfl := fragLen_le w.block_offset_ left
  have ha := availAt_le w.block_offset_ h0 h1
  have hs := startOffset_range w.block_offset_ h0 h1
  have hlen' : (iterAt file crc w ptr left b).emission.length
      = (iterAt file crc w ptr left b).emission.payload.length := by
    rw [hpl]; rfl
  have hcast : ((w.block_offset_.toNat : Nat) : Int) = w.block_offset_ :=
    Int.toNat_of_nonneg h0
  have hstep := decode_fragment crc w.type_crc_ (iterAt file crc w ptr left b).emission.type
    (iterAt file crc w ptr left b).emission.payload
    (iterAt file crc w ptr left b).emission.payload w.block_offset_.toNat (by omega)
    (by rw [hpl]; omega) fuel acc tail
  rw [hcast] at hstep
  have hoff : (startOffset w.block_offset_).toNat + 7 +
      (iterAt file crc w ptr left b).emission.payload.length
      = (iterAt file crc w ptr left b).w.block_offset_.toNat := by
    rw [hpl]
    show _ = (startOffset w.block_offset_ + 7 + (fragLen w.block_offset_ left : Int)).toNat
    omega
  rw [hoff] at hstep
  rw [hlen']
  exact hstep

/-- The reader, run over the bytes one call of AddRecord appends to the
never-failing destination, yields the record and goes on at the block offset
the writer is left at. -/
theorem decode_addRecord (crc : Crc32c) (w : Writer (List Nat)) (S : List Nat)
    (h0 : 0 ≤ w.block_offset_) (h1 : w.block_offset_ ≤ 32768) :
    ∃ w' es bytes, AddRecord memFile crc w S = Outcome.done w' Status.OK es ∧
      w'.dest_ = w.dest_ ++ bytes ∧
      ∀ (fuel : Nat) (acc rest : List Nat), (bytes ++ rest).length ≤ fuel →
        ∃ fuel', rest.length ≤ fuel' ∧
          decodeLoop fuel w.block_offset_.toNat acc (bytes ++ rest)
            = S :: decodeLoop fuel' w'.block_offset_.toNat [] rest := by
  obtain ⟨w', s, es, hrun, hP⟩ := AddRecord_rule memFile crc
    (fun w ptr left b w' s _ => left = ptr.length →
      s = Status.OK ∧ ∃ bytes, w'.dest_ = w.dest_ ++ bytes ∧
      ∀ (fuel : Nat) (acc rest : List Nat), (bytes ++ rest).length ≤ fuel →
        ∃ fuel', rest.length ≤ fuel' ∧
          decodeLoop fuel w.block_offset_.toNat acc (bytes ++ rest)
            = ((if b = true then [] else acc) ++ ptr) ::
              decodeLoop fuel' w'.block_offset_.toNat [] rest)
    (by
      intro w ptr left b h0 h1 hc hlen
      have hbytes := memFile_iterAt_bytes crc w ptr left b h0 h1
      have hz : ¬ 0 < left - fragLen w.block_offset_ left := fun hl =>
        hc ⟨rfl, hl⟩
      have hle := fragLen_le w.block_offset_ left
      have hfl : fragLen w.block_offset_ left = left := by omega
      have hend : (left == fragLen w.block_offset_ left) = true := by rw [hfl]; simp
      have hpay : (iterAt memFile crc w ptr left b).emission.payload = ptr := by
        show List.take (fragLen w.block_offset_ left) ptr = ptr
        rw [hfl, hlen, List.take_length]
      have hty : (iterAt memFile crc w ptr left b).emission.type = SelectType b true := by
        show SelectType b (left == fragLen w.block_offset_ left) = _
        rw [hend]
      refine ⟨rfl, _, by rw [hbytes, List.append_assoc], ?_⟩
      intro fuel acc rest hfuel
      have h7 := formatHeader_length crc w.type_crc_
        (iterAt memFile crc w ptr left b).emission.type
        (iterAt memFile crc w ptr left b).emission.payload
        (iterAt memFile crc w ptr left b).emission.length
      simp only [List.length_append, h7] at hfuel
      obtain ⟨f, rfl⟩ : ∃ f, fuel = f + 1 := ⟨fuel - 1, by omega⟩
      refine ⟨f, by omega, ?_⟩
      rw [decode_iterAt memFile crc w ptr left b h0 h1 hlen f acc rest, hty, hpay]
      cases b <;> simp [SelectType, RecordType.toNat])
    (by
      intro w ptr left b h0 h1 _ hl w' s' es ih hlen
      have hbytes := memFile_iterAt_bytes crc w ptr left b h0 h1
      obtain ⟨hfl, hlt, _⟩ := iterAt_left_pos memFile crc w ptr left b h0 h1 hl
      obtain ⟨_, hlen'⟩ := iterAt_payload_length memFile crc w ptr left b hlen
      have hend : (left == fragLen w.block_offset_ left) = false := by
        rw [hfl]; simp; omega
      have hty : (iterAt memFile crc w ptr left b).emission.type = SelectType b false := by
        show SelectType b (left == fragLen w.block_offset_ left) = _
        rw [hend]
      have hsplit : (iterAt memFile crc w ptr left b).emission.payload ++
          (iterAt memFile crc w ptr left b).ptr = ptr := List.take_append_drop _ _
      obtain ⟨hs, bytes', hd', hdec⟩ := ih hlen'
      refine ⟨hs, padding w.block_offset_ ++
          (FormatHeader crc w.type_crc_ (iterAt memFile crc w ptr left b).emission.type
              (iterAt memFile crc w ptr left b).emission.payload
              (iterAt memFile crc w ptr left b).emission.length ++
            (iterAt memFile crc w ptr left b).emission.payload) ++ bytes',
        by rw [hd', hbytes]; simp only [List.append_assoc], ?_⟩
      intro fuel acc rest hfuel
      have h7 := formatHeader_length crc w.type_crc_
        (iterAt memFile crc w ptr left b).emission.type
        (iterAt memFile crc w ptr left b).emission.payload
        (iterAt memFile crc w ptr left b).emission.length
      simp only [List.length_append, h7] at hfuel
      obtain ⟨f, rfl⟩ : ∃ f, fuel = f + 1 := ⟨fuel - 1, by omega⟩
      have hassoc : (padding w.block_offset_ ++
          (FormatHeader crc w.type_crc_ (iterAt memFile crc w ptr left b).emission.type
              (iterAt memFile crc w ptr left b).emission.payload
              (iterAt memFile crc w ptr left b).emission.length ++
            (iterAt memFile crc w ptr left b).emission.payload) ++ bytes') ++ rest
          = padding w.block_offset_ ++
          (FormatHeader crc w.type_crc_ (iterAt memFile crc w ptr left b).emission.type
              (iterAt memFile crc w ptr left b).emission.payload
              (iterAt memFile crc w ptr left b).emission.length ++
            (iterAt memFile crc w ptr left b).emission.payload) ++ (bytes' ++ rest) := by
        simp only [List.append_assoc]
      rw [hassoc, decode_iterAt memFile crc w ptr left b h0 h1 hlen f acc (bytes' ++ rest), hty]
      cases b
      · obtain ⟨fuel', hf', hrec⟩ := hdec f
          (acc ++ (iterAt memFile crc w ptr left false).emission.payload) rest
          (by simp only [List.length_append]; omega)
        refine ⟨fuel', hf', ?_⟩
        have ht : (SelectType false false).toNat = 3 := rfl
        rw [ht, if_neg (by decide), if_neg (by decide), if_pos rfl, hrec]
        simp only [Bool.false_eq_true, if_false, List.append_assoc, hsplit]
      · obtain ⟨fuel', hf', hrec⟩ := hdec f
          (iterAt memFile crc w ptr left true).emission.payload rest
          (by simp only [List.length_append]; omega)
        refine ⟨fuel', hf', ?_⟩
        have ht : (SelectType true false).toNat = 2 := rfl
        rw [ht, if_neg (by decide), if_pos rfl, hrec]
        simp only [Bool.false_eq_true, if_false, if_true, List.nil_append, hsplit])
    w S h0 h1
  obtain ⟨hs, bytes, hd, hdec⟩ := hP rfl
  subst hs
  refine ⟨w', es, bytes, hrun, hd, ?_⟩
  intro fuel acc rest hfuel
  obtain ⟨fuel', hf', hrec⟩ := hdec fuel acc rest hfuel
  exact ⟨fuel', hf', by rw [hrec]; rfl⟩

theorem decodeLoop_nil (fuel o : Nat) (acc : List Nat) : decodeLoop fuel o acc [] = [] := by
  cases fuel with
  | zero => rfl
  | succ n => rw [decodeLoop, if_pos rfl]

/-- The reader, run over the bytes a sequence of AddRecord calls appends to the
never-failing destination, yields the records of the calls, in order. -/
theorem decode_addRecords (crc : Crc32c) (rs : List (List Nat)) :
    ∀ w : Writer (List Nat), 0 ≤ w.block_offset_ → w.block_offset_ ≤ 32768 →
      ∃ w' ss bytes, AddRecords memFile crc w rs = some (w', ss) ∧
        w'.dest_ = w.dest_ ++ bytes ∧
        ∀ fuel, bytes.length ≤ fuel → decodeLoop fuel w.block_offset_.toNat [] bytes = rs := by
  induction rs with
  | nil =>
    intro w _ _
    exact ⟨w, [], [], rfl, (List.append_nil _).symm, fun fuel _ => decodeLoop_nil fuel _ _⟩
  | cons r rs ih =>
    intro w h0 h1
    obtain ⟨w1, es, bytes1, hrun, hd1, hdec⟩ := decode_addRecord crc w r h0 h1
    obtain ⟨w1', s1', es', hrun', h7, h8, _⟩ := addRecord_total memFile crc w r h0 h1
    rw [hrun] at hrun'
    simp only [Outcome.done.injEq] at hrun'
    obtain ⟨hw, _, _⟩ := hrun'
    subst hw
    obtain ⟨w2, ss, bytes2, hrun2, hd2, hdec2⟩ := ih w1 (by omega) h8
    refine ⟨w2, Status.OK :: ss, bytes1 ++ bytes2, ?_, ?_, ?_⟩
    · rw [AddRecords, hrun]
      simp only [hrun2]
    · rw [hd2, hd1, List.append_assoc]
    · intro fuel hfuel
      obtain ⟨fuel', hf', hrec⟩ := hdec fuel [] bytes2 hfuel
      rw [hrec, hdec2 fuel' hf']

/-- C17 (unique decodability).  On the never-failing destination, the byte
stream a fresh writer appends for a sequence of records is read back to exactly
that sequence by a reader that does not look at the checksum bytes; so two
different sequences of records (in count, lengths or bytes, empty records
included) never give the same byte stream, whatever the checksum function
is — even when the two streams are written with different checksum functions. -/
theorem unique_decodability (crc crc' : Crc32c) (rs1 rs2 : List (List Nat)) :
    ∃ w1 ss1 w2 ss2,
      AddRecords memFile crc (Writer.new crc []) rs1 = some (w1, ss1) ∧
      AddRecords memFile crc' (Writer.new crc' []) rs2 = some (w2, ss2) ∧
      Decode w1.dest_ = rs1 ∧ Decode w2.dest_ = rs2 ∧
      (w1.dest_ = w2.dest_ → rs1 = rs2) ∧ (rs1 ≠ rs2 → w1.dest_ ≠ w2.dest_) := by
  obtain ⟨w1, ss1, bytes1, hrun1, hd1, hdec1⟩ := decode_addRecords crc rs1
    (Writer.new crc []) (le_refl _) (by show (0 : Int) ≤ 32768; decide)
  obtain ⟨w2, ss2, bytes2, hrun2, hd2, hdec2⟩ := decode_addRecords crc' rs2
    (Writer.new crc' []) (le_refl _) (by show (0 : Int) ≤ 32768; decide)
  have e1 : w1.dest_ = bytes1 := by rw [hd1]; rfl
  have e2 : w2.dest_ = bytes2 := by rw [hd2]; rfl
  have r1 : Decode w1.dest_ = rs1 := by
    rw [e1]; exact hdec1 bytes1.length (le_refl _)
  have r2 : Decode w2.dest_ = rs2 := by
    rw [e2]; exact hdec2 bytes2.length (le_refl _)
  have hinj : w1.dest_ = w2.dest_ → rs1 = rs2 := by
    intro h
    rw [← r1, ← r2, h]
  exact ⟨w1, ss1, w2, ss2, hrun1, hrun2, r1, r2, hinj, fun hne h => hne (hinj h)⟩

end log
end leveldb
